import Mathlib

/-!
ColordleSolver: the digit filter, the hex/RGB converters, the matcher and the solver

A shallow embedding of `src/utils/wordleSolver.js` (`filterColorsByWordleHints`)
and of `src/utils/solver.js` (`hexToRgb`, `rgbToHex`, `findBestDatabaseMatches`,
`solveRGBIncremental`).

Modelling conventions.
* A JavaScript string is the list of its UTF-16 code units; indexing a string past
  its end gives `undefined`, here `none`. On ASCII text, the domain of hex digits,
  a code unit is a character and the string is a `List Char`.
* `String.prototype.toUpperCase` is a Unicode case mapping that may change the
  length of a string. The digit filter is therefore given twice: over any type of
  code units with the case mapping as a parameter (`filterColorsByWordleHintsOn`),
  and as its instance on ASCII text (`filterColorsByWordleHints`), where
  `toUpperCase` maps `a`..`z` to `A`..`Z` and leaves every other character alone.
* A feedback mark is one of the three strings the code tests for, or anything
  else (`Mark.other`, which also stands for a missing array element).
* The per-guess counter object `targetCharCounts` is a function from keys to
  counts; a key that was never written reads as `0`, which the two tests of the
  code (`!x || x <= 0` and `x && x > 0`) do not tell apart from `undefined`.
-/

namespace ColordleSolver

/-! ## Data model -/

/-- One feedback state of a hex-digit guess: the strings `'correct'`, `'present'`,
`'absent'`, and `other` for every other value. -/
inductive Mark where
  | correct
  | present
  | absent
  | other
  deriving DecidableEq, Repr

/-- A database entry `{ name, hex }`. -/
structure Color where
  name : String
  hex : List Char
  deriving DecidableEq, Repr

/-- A guess record `{ hex, feedback }`. -/
structure Guess where
  hex : List Char
  feedback : List Mark
  deriving DecidableEq, Repr

/-- The counter object of the filter: key to count, `0` when the key is unset. -/
abbrev CharCounts := Option Char → Nat

/-! ## `wordleSolver.js` -/

/-- `String.prototype.toUpperCase` on ASCII text: `a`..`z` go to `A`..`Z`. Outside
ASCII the case mapping of JavaScript differs (it may even lengthen a string); that
case is the parameter `upper` of `normalizeHexOn` and `satisfiesGuessOn`. -/
def toUpperCase (s : List Char) : List Char := s.map Char.toUpper

/-- Line 14: `color.hex.startsWith('#') ? color.hex.slice(1).toUpperCase()
: color.hex.toUpperCase()`. -/
def normalizeHex (h : List Char) : List Char :=
  if h.head? = some '#' then toUpperCase (h.drop 1) else toUpperCase h

/-- The element `feedback[i]`. -/
def markAt (feedback : List Mark) (i : Nat) : Mark := feedback.getD i Mark.other

/-- Lines 24-28: no position marked `correct` has `hex[i] !== guessHex[i]`. -/
def correctPass (hex guessHex : List Char) (feedback : List Mark) : Bool :=
  (List.range 6).all fun i =>
    if markAt feedback i = Mark.correct then decide (hex[i]? = guessHex[i]?) else true

/-- Lines 32-40: `remainingTarget`, the candidate's characters at the positions
not marked `correct`. -/
def remainingTarget (hex : List Char) (feedback : List Mark) : List (Option Char) :=
  ((List.range 6).filter fun i => decide (markAt feedback i ≠ Mark.correct)).map
    fun i => hex[i]?

/-- Lines 32-40: `remainingGuess`, the `{ char, type }` records of the positions
not marked `correct`. -/
def remainingGuess (guessHex : List Char) (feedback : List Mark) :
    List (Option Char × Mark) :=
  ((List.range 6).filter fun i => decide (markAt feedback i ≠ Mark.correct)).map
    fun i => (guessHex[i]?, markAt feedback i)

/-- The update `targetCharCounts[c] = (targetCharCounts[c] || 0) + 1`. -/
def bump (m : CharCounts) (c : Option Char) : CharCounts :=
  fun k => if k = c then m k + 1 else m k

/-- The update `targetCharCounts[c]--`. -/
def consume (m : CharCounts) (c : Option Char) : CharCounts :=
  fun k => if k = c then m k - 1 else m k

/-- Lines 43-44: the counter object built from `remainingTarget`. -/
def targetCharCounts (rt : List (Option Char)) : CharCounts :=
  rt.foldl bump (fun _ => 0)

/-- Lines 47-55: the `present` loop; `none` is the early `return false`, otherwise
the counters after all decrements. -/
def checkPresent : List (Option Char × Mark) → CharCounts → Option CharCounts
  | [], m => some m
  | g :: rest, m =>
    if g.2 = Mark.present then
      if m g.1 = 0 then none else checkPresent rest (consume m g.1)
    else checkPresent rest m

/-- Lines 60-67: the `absent` loop. -/
def checkAbsent (rg : List (Option Char × Mark)) (m : CharCounts) : Bool :=
  rg.all fun g => if g.2 = Mark.absent then decide (m g.1 = 0) else true

/-- Lines 19-70: the callback of `guesses.every`, for a normalised candidate `hex`. -/
def satisfiesGuess (hex : List Char) (guess : Guess) : Bool :=
  let guessHex := toUpperCase guess.hex
  let feedback := guess.feedback
  if correctPass hex guessHex feedback then
    let rg := remainingGuess guessHex feedback
    match checkPresent rg (targetCharCounts (remainingTarget hex feedback)) with
    | none => false
    | some m => checkAbsent rg m
  else false

/-- Lines 13-71: the callback of `colorList.filter`, on ASCII text (the instance of
`keepColorOn` at `toUpperCase`, where a character is one code unit). -/
def keepColor (guesses : List Guess) (color : Color) : Bool :=
  let hex := normalizeHex color.hex
  if hex.length ≠ 6 then false else guesses.all (satisfiesGuess hex)

/-- Lines 10-72. A missing `guesses` argument behaves as the empty history. -/
def filterColorsByWordleHints (colorList : List Color) (guesses : List Guess) :
    List Color :=
  if guesses.length = 0 then colorList else colorList.filter (keepColor guesses)

/-! ## The mock data of `test-wordle.js` -/

/-- The eight-colour `mockColorList` of the test. -/
def mockColorList : List Color :=
  [⟨"Red", "#FF0000".toList⟩, ⟨"Green", "#00FF00".toList⟩, ⟨"Blue", "#0000FF".toList⟩,
   ⟨"Cyan", "#00FFFF".toList⟩, ⟨"Magenta", "#FF00FF".toList⟩, ⟨"Yellow", "#FFFF00".toList⟩,
   ⟨"White", "#FFFFFF".toList⟩, ⟨"Black", "#000000".toList⟩]

/-- The feedback array with the same mark at all six positions. -/
def allMarks (m : Mark) : List Mark := List.replicate 6 m

/-! ## `wordleSolver.js` over any code units

The same functions for strings over any type `U` of code units, with the case
mapping `upper` and the code unit `hash` of `#` as parameters. JavaScript is the
instance where `U` is the UTF-16 code units and `upper` is
`String.prototype.toUpperCase`; nothing is assumed of `upper`, in particular not
that it keeps the length. A guess record is the pair of its `hex` and `feedback`,
and a database entry is any value `color` with `hexOf color` its `hex`. -/

/-- Line 14: `color.hex.startsWith('#') ? color.hex.slice(1).toUpperCase()
: color.hex.toUpperCase()`. -/
def normalizeHexOn {U : Type} [DecidableEq U] (upper : List U → List U) (hash : U)
    (h : List U) : List U :=
  if h.head? = some hash then upper (h.drop 1) else upper h

/-- Lines 24-28: no position marked `correct` has `hex[i] !== guessHex[i]`. -/
def correctPassOn {U : Type} [DecidableEq U] (hex guessHex : List U) (feedback : List Mark) :
    Bool :=
  (List.range 6).all fun i =>
    if markAt feedback i = Mark.correct then decide (hex[i]? = guessHex[i]?) else true

/-- Lines 32-40: `remainingTarget`. -/
def remainingTargetOn {U : Type} (hex : List U) (feedback : List Mark) : List (Option U) :=
  ((List.range 6).filter fun i => decide (markAt feedback i ≠ Mark.correct)).map
    fun i => hex[i]?

/-- Lines 32-40: `remainingGuess`. -/
def remainingGuessOn {U : Type} (guessHex : List U) (feedback : List Mark) :
    List (Option U × Mark) :=
  ((List.range 6).filter fun i => decide (markAt feedback i ≠ Mark.correct)).map
    fun i => (guessHex[i]?, markAt feedback i)

/-- The update `targetCharCounts[c] = (targetCharCounts[c] || 0) + 1`. -/
def bumpOn {U : Type} [DecidableEq U] (m : Option U → Nat) (c : Option U) : Option U → Nat :=
  fun k => if k = c then m k + 1 else m k

/-- The update `targetCharCounts[c]--`. -/
def consumeOn {U : Type} [DecidableEq U] (m : Option U → Nat) (c : Option U) :
    Option U → Nat :=
  fun k => if k = c then m k - 1 else m k

/-- Lines 43-44: the counter object built from `remainingTarget`. -/
def targetCharCountsOn {U : Type} [DecidableEq U] (rt : List (Option U)) : Option U → Nat :=
  rt.foldl bumpOn (fun _ => 0)

/-- Lines 47-55: the `present` loop; `none` is the early `return false`. -/
def checkPresentOn {U : Type} [DecidableEq U] :
    List (Option U × Mark) → (Option U → Nat) → Option (Option U → Nat)
  | [], m => some m
  | g :: rest, m =>
    if g.2 = Mark.present then
      if m g.1 = 0 then none else checkPresentOn rest (consumeOn m g.1)
    else checkPresentOn rest m

/-- Lines 60-67: the `absent` loop. -/
def checkAbsentOn {U : Type} (rg : List (Option U × Mark)) (m : Option U → Nat) : Bool :=
  rg.all fun g => if g.2 = Mark.absent then decide (m g.1 = 0) else true

/-- Lines 19-70: the callback of `guesses.every`, for a normalised candidate `hex`. -/
def satisfiesGuessOn {U : Type} [DecidableEq U] (upper : List U → List U) (hex : List U)
    (guess : List U × List Mark) : Bool :=
  let guessHex := upper guess.1
  let feedback := guess.2
  if correctPassOn hex guessHex feedback then
    let rg := remainingGuessOn guessHex feedback
    match checkPresentOn rg (targetCharCountsOn (remainingTargetOn hex feedback)) with
    | none => false
    | some m => checkAbsentOn rg m
  else false

/-- Lines 13-71: the callback of `colorList.filter`; `hex.length` counts code units. -/
def keepColorOn {U : Type} [DecidableEq U] {E : Type} (upper : List U → List U) (hash : U)
    (hexOf : E → List U) (guesses : List (List U × List Mark)) (color : E) : Bool :=
  let hex := normalizeHexOn upper hash (hexOf color)
  if hex.length ≠ 6 then false else guesses.all (satisfiesGuessOn upper hex)

/-- Lines 10-72. A missing `guesses` argument behaves as the empty history. -/
def filterColorsByWordleHintsOn {U : Type} [DecidableEq U] {E : Type}
    (upper : List U → List U) (hash : U) (hexOf : E → List U) (colorList : List E)
    (guesses : List (List U × List Mark)) : List E :=
  if guesses.length = 0 then colorList
  else colorList.filter (keepColorOn upper hash hexOf guesses)

/-- A guess record of the ASCII instance as the pair of its `hex` and `feedback`. -/
def guessPair (g : Guess) : List Char × List Mark := (g.hex, g.feedback)

/-! ## `solver.js`: the hex/RGB converters -/

/-- An RGB triple `{ r, g, b }`. -/
structure Rgb where
  r : Int
  g : Int
  b : Int
  deriving DecidableEq, Repr

/-- The character class `[a-f\d]` under the `i` flag: `a`-`f`, `A`-`F`, `0`-`9`. -/
def hexClass (c : Char) : Bool :=
  ('a' ≤ c && c ≤ 'f') || ('A' ≤ c && c ≤ 'F') || ('0' ≤ c && c ≤ '9')

/-- The tail `([a-f\d]{2})([a-f\d]{2})([a-f\d]{2})$` of the pattern: exactly six
characters of the class up to the end of the input, cut into the three groups. -/
def matchGroups (s : List Char) : Option (List Char × List Char × List Char) :=
  match s with
  | [c1, c2, c3, c4, c5, c6] =>
    if hexClass c1 && hexClass c2 && hexClass c3 && hexClass c4 && hexClass c5 && hexClass c6
    then some ([c1, c2], [c3, c4], [c5, c6]) else none
  | _ => none

/-- The match `/^#?([a-f\d]{2})([a-f\d]{2})([a-f\d]{2})$/i.exec(hex)`: the greedy `#?`
first consumes a leading `#`, and backtracks to the empty match if the rest fails. -/
def hexRegexExec (s : List Char) : Option (List Char × List Char × List Char) :=
  match s with
  | c :: t =>
    if c = '#' then
      match matchGroups t with
      | some r => some r
      | none => matchGroups s
    else matchGroups s
  | [] => matchGroups s

/-- The value of one hexadecimal digit, as `parseInt(_, 16)` reads it. -/
def hexDigitValue (c : Char) : Nat :=
  if '0' ≤ c && c ≤ '9' then c.toNat - '0'.toNat
  else if 'a' ≤ c && c ≤ 'f' then c.toNat - 'a'.toNat + 10
  else if 'A' ≤ c && c ≤ 'F' then c.toNat - 'A'.toNat + 10
  else 0

/-- The call `parseInt(s, 16)` on a string of hexadecimal digits. -/
def parseInt16 (s : List Char) : Int :=
  ((s.foldl (fun acc c => acc * 16 + hexDigitValue c) 0 : Nat) : Int)

/-- Lines 112-119 of `solver.js`; `none` is `null`. -/
def hexToRgb (hex : List Char) : Option Rgb :=
  match hexRegexExec hex with
  | some (g1, g2, g3) => some ⟨parseInt16 g1, parseInt16 g2, parseInt16 g3⟩
  | none => none

/-- The conversion `ToInt32` on an integer-valued number. -/
def toInt32 (x : Int) : Int :=
  let m := x % 4294967296
  if 2147483648 ≤ m then m - 4294967296 else m

/-- The operator `x << k` for `k < 32`: a 32-bit left shift with a signed result. -/
def shiftLeft (x : Int) (k : Nat) : Int := toInt32 (toInt32 x * 2 ^ k)

/-- The call `n.toString(16)` on an integer-valued number: lowercase digits,
with a leading `-` for a negative number. -/
def numberToString16 (n : Int) : List Char :=
  if n < 0 then '-' :: Nat.toDigits 16 n.natAbs else Nat.toDigits 16 n.natAbs

/-- Lines 121-123 of `solver.js`:
`"#" + ((1 << 24) + (r << 16) + (g << 8) + b).toString(16).slice(1).toUpperCase()`,
on integer arguments (the sum is exact). -/
def rgbToHex (r g b : Int) : List Char :=
  '#' :: toUpperCase
    ((numberToString16 (shiftLeft 1 24 + shiftLeft r 16 + shiftLeft g 8 + b)).drop 1)

/-- The clamp of a channel to `[0, 255]`. -/
def clamp (x : Int) : Int := max 0 (min 255 x)

/-! ## `solver.js`: scoring and ranking

JavaScript numbers are taken as exact rationals, with `⊤ : WithTop ℚ` for `Infinity`
where the code produces it. The perceptual distance `getDeltaE` wraps two library
calls (`color-convert`, `delta-e`) that are not part of the repository, and
`Math.sqrt` has no rational counterpart: both are parameters of the model. -/

/-- An `[r, g, b]` array of numbers. -/
abbrev Point := ℚ × ℚ × ℚ

/-- A constraint `{ rgb, score }`. -/
structure Constraint where
  rgb : Point
  score : ℚ
  deriving DecidableEq

/-- A target `{ rgb, targetDE }`. -/
structure Target where
  rgb : Point
  targetDE : ℚ
  deriving DecidableEq

/-- A scored entry `{ color, error }`. -/
structure Scored where
  color : Color
  error : WithTop ℚ
  deriving DecidableEq

/-- A returned match `{ ...color, rgb, error, score }`. -/
structure Match where
  name : String
  hex : List Char
  rgb : Option Rgb
  error : WithTop ℚ
  score : ℚ
  deriving DecidableEq

/-- Lines 33-36 and 132-135: `constraints.map(c => ({ rgb: c.rgb, targetDE: 100 - (c.score || 0) }))`;
on a number, `c.score || 0` is the score. -/
def toTargets (constraints : List Constraint) : List Target :=
  constraints.map fun c => ⟨c.rgb, 100 - c.score⟩

/-- Lines 103-110 (and the loop of lines 142-147): the sum of
`Math.pow(calculatedDE - target.targetDE, 2)` over the targets. -/
def calculateError (deltaE : Point → Point → ℚ) (rgb : Point) (targets : List Target) : ℚ :=
  targets.foldl
    (fun totalError target => totalError + (deltaE rgb target.rgb - target.targetDE) ^ 2) 0

/-- The array `[rgbObj.r, rgbObj.g, rgbObj.b]`. -/
def rgbArr (o : Rgb) : Point := ((o.r : ℚ), (o.g : ℚ), (o.b : ℚ))

/-- Lines 137-150: the callback of `colorList.map`. -/
def scoreColor (deltaE : Point → Point → ℚ) (targets : List Target) (color : Color) : Scored :=
  match hexToRgb color.hex with
  | none => ⟨color, ⊤⟩
  | some rgbObj => ⟨color, ((calculateError deltaE (rgbArr rgbObj) targets : ℚ) : WithTop ℚ)⟩

/-- Lines 155-167: the callback of the final `map`, for `n = constraints.length`.
For an infinite error `Math.max(0, 100 - Infinity)` is `0`. -/
def toMatch (sqrt : ℚ → ℚ) (n : Nat) (item : Scored) : Match :=
  { name := item.color.name
    hex := item.color.hex
    rgb := hexToRgb item.color.hex
    error := item.error
    score :=
      match item.error with
      | none => 0
      | some e => max 0 (100 - sqrt (e / (n : ℚ))) }

/-- Line 153: `sort((a, b) => a.error - b.error)`, a stable sort by ascending error. -/
def sortByError (scored : List Scored) : List Scored :=
  scored.insertionSort fun a b => a.error ≤ b.error

/-- Lines 129-168. `none` is a missing `constraints` argument; `limit` is a count. -/
def findBestDatabaseMatches (deltaE : Point → Point → ℚ) (sqrt : ℚ → ℚ)
    (constraints : Option (List Constraint)) (colorList : List Color) (limit : Nat) :
    List Match :=
  match constraints with
  | none => []
  | some cs =>
    if cs.length = 0 then []
    else
      let targets := toTargets cs
      let scored := colorList.map (scoreColor deltaE targets)
      ((sortByError scored).take limit).map (toMatch sqrt cs.length)

/-! ## `solver.js`: the local search

The `while (improved)` loop is run with a bound `fuel` on its number of rounds;
`none` means the bound was reached. -/

/-- The search state of one starting point: `bestRGB` and `minError`. -/
structure Search where
  bestRGB : Point
  minError : ℚ
  deriving DecidableEq

/-- The state across starting points: `overallBestRGB` and `overallMinError`. -/
structure Overall where
  overallBestRGB : Point
  overallMinError : WithTop ℚ
  deriving DecidableEq

/-- The clamp `Math.max(0, Math.min(255, x))`. -/
def clampChannel (x : ℚ) : ℚ := max 0 (min 255 x)

/-- Lines 74-78: `nextRGB`, the clamped neighbour of `bestRGB` in the direction `d`. -/
def nextRGB (bestRGB d : Point) : Point :=
  (clampChannel (bestRGB.1 + d.1), clampChannel (bestRGB.2.1 + d.2.1),
    clampChannel (bestRGB.2.2 + d.2.2))

/-- Lines 67-71: the six directions of a step. -/
def directions (step : ℚ) : List Point :=
  [(step, 0, 0), (-step, 0, 0), (0, step, 0), (0, -step, 0), (0, 0, step), (0, 0, -step)]

/-- Line 59: the step sizes. -/
def steps : List ℚ := [64, 32, 16, 8, 4, 2, 1, 1 / 2, 1 / 10]

/-- Lines 73-86: the body of the loop over the directions; the flag is `improved`. -/
def tryDirection (err : Point → ℚ) (st : Search × Bool) (d : Point) : Search × Bool :=
  let next := nextRGB st.1.bestRGB d
  let error := err next
  if error < st.1.minError then (⟨next, error⟩, true) else st

/-- Lines 64-86: one round of the `while` loop, from `improved = false`. -/
def sweep (err : Point → ℚ) (step : ℚ) (st : Search) : Search × Bool :=
  (directions step).foldl (tryDirection err) (st, false)

/-- Lines 62-87: the loop `while (improved)` for one step size. -/
def climb (err : Point → ℚ) (step : ℚ) : Nat → Search → Option Search
  | 0, _ => none
  | fuel + 1, st =>
    match sweep err step st with
    | (st2, true) => climb err step fuel st2
    | (st2, false) => some st2

/-- Lines 61-88: the loop over the step sizes. -/
def refine (err : Point → ℚ) (fuel : Nat) : List ℚ → Search → Option Search
  | [], st => some st
  | step :: rest, st =>
    match climb err step fuel st with
    | none => none
    | some st2 => refine err fuel rest st2

/-- Lines 55-88: the local search from one starting point. -/
def localSearch (err : Point → ℚ) (fuel : Nat) (startPoint : Point) : Option Search :=
  refine err fuel steps ⟨startPoint, err startPoint⟩

/-- Lines 46-47: the componentwise average of the guess colours. -/
def averagePoint (constraints : List Constraint) : Point :=
  let acc := constraints.foldl
    (fun acc c => (acc.1 + c.rgb.1, acc.2.1 + c.rgb.2.1, acc.2.2 + c.rgb.2.2)) ((0 : ℚ), (0 : ℚ), (0 : ℚ))
  (acc.1 / (constraints.length : ℚ), acc.2.1 / (constraints.length : ℚ),
    acc.2.2 / (constraints.length : ℚ))

/-- Lines 39-49: the starting points. -/
def startingPoints (constraints : List Constraint) : List Point :=
  [(128, 128, 128), (64, 64, 64), (192, 192, 192)] ++
    (if constraints.length > 0 then [averagePoint constraints] else [])

/-- Lines 54-94: the loop over the starting points. -/
def searchAll (err : Point → ℚ) (fuel : Nat) : List Point → Overall → Option Overall
  | [], o => some o
  | startPoint :: rest, o =>
    match localSearch err fuel startPoint with
    | none => none
    | some st =>
      if (st.minError : WithTop ℚ) < o.overallMinError then
        searchAll err fuel rest ⟨st.bestRGB, (st.minError : WithTop ℚ)⟩
      else searchAll err fuel rest o

/-- The function `Math.round`: the nearest integer, halves rounded up. -/
def mathRound (x : ℚ) : Int := ⌊x + 1 / 2⌋

/-- The rounding of lines 96-100. -/
def roundPoint (p : Point) : Rgb := ⟨mathRound p.1, mathRound p.2.1, mathRound p.2.2⟩

/-- Lines 30-101. `none` as `constraints` is a missing argument; the result is
`none` when a `while` loop exceeds `fuel` rounds. -/
def solveRGBIncremental (deltaE : Point → Point → ℚ) (fuel : Nat)
    (constraints : Option (List Constraint)) : Option Rgb :=
  match constraints with
  | none => some ⟨128, 128, 128⟩
  | some cs =>
    if cs.length = 0 then some ⟨128, 128, 128⟩
    else
      let targets := toTargets cs
      match searchAll (fun rgb => calculateError deltaE rgb targets) fuel (startingPoints cs)
          ⟨(128, 128, 128), ⊤⟩ with
      | none => none
      | some o => some (roundPoint o.overallBestRGB)

/-- The total squared error in the spec's words: the sum over the constraints of
`((100 - DeltaE(candidate, guess)) - score)²`. -/
def specError (deltaE : Point → Point → ℚ) (candidate : Point) (constraints : List Constraint) :
    ℚ :=
  (constraints.map fun c => ((100 - deltaE candidate c.rgb) - c.score) ^ 2).sum

/-- A simple distance on RGB arrays (the sum of the channel differences, over `8`),
used to instantiate the parameter `deltaE` in examples. -/
def sampleDeltaE (p q : Point) : ℚ :=
  (|p.1 - q.1| + |p.2.1 - q.2.1| + |p.2.2 - q.2.2|) / 8

/-- The integer square root of the integer part, a non-negative stand-in used to
instantiate the parameter `sqrt` in examples. -/
def sampleSqrt (x : ℚ) : ℚ := ((Nat.sqrt ⌊x⌋.toNat : ℕ) : ℚ)

/-- The channel values that the search can reach from the channel `x0`: `x0` itself,
and the values in `[0, 255]` that lie a whole number of tenths from `x0` or from `0`. -/
def channelLattice (x0 : ℚ) : Set ℚ :=
  {y | y = x0 ∨ ∃ j : ℤ, (y = x0 + (j : ℚ) / 10 ∨ y = (j : ℚ) / 10) ∧ 0 ≤ y ∧ y ≤ 255}

/-- The points whose channels are reachable from those of `p0`. -/
def pointLattice (p0 : Point) : Set Point :=
  {p | p.1 ∈ channelLattice p0.1 ∧ p.2.1 ∈ channelLattice p0.2.1 ∧
    p.2.2 ∈ channelLattice p0.2.2}

/-- A point with all three channels in `[0, 255]`. -/
def InRange (p : Point) : Prop :=
  (0 ≤ p.1 ∧ p.1 ≤ 255) ∧ (0 ≤ p.2.1 ∧ p.2.1 ≤ 255) ∧ (0 ≤ p.2.2 ∧ p.2.2 ≤ 255)

/-- Line 90-93: the update of the overall best by the result of one search. -/
def pickBest (o : Overall) (st : Search) : Overall :=
  if (st.minError : WithTop ℚ) < o.overallMinError then ⟨st.bestRGB, (st.minError : WithTop ℚ)⟩
  else o

/-! ## Specification-side vocabulary -/

/-- A hexadecimal digit in the spec's words: one of `0-9`, `a-f`, `A-F`. -/
def isHexDigit (c : Char) : Bool := "0123456789abcdefABCDEF".toList.contains c

/-- A string that is an optional leading `#` followed by exactly six hexadecimal
digits and nothing else. -/
def isSixDigitHex (s : List Char) : Bool :=
  let t := if s.head? = some '#' then s.drop 1 else s
  t.length == 6 && t.all isHexDigit

/-- The uppercase hexadecimal digit of value `d`. -/
def upperHexDigit (d : Nat) : Char := "0123456789ABCDEF".toList.getD d '0'

/-- The two uppercase hexadecimal digits that encode a channel value `n < 256`. -/
def upperHexPair (n : Nat) : List Char := [upperHexDigit (n / 16), upperHexDigit (n % 16)]

/-- The number of occurrences of the key `k` among the candidate's positions not
marked `correct`. -/
def nonCorrectOcc (hex : List Char) (feedback : List Mark) (k : Option Char) : Nat :=
  (List.range 6).countP fun i => decide (markAt feedback i ≠ Mark.correct ∧ hex[i]? = k)

/-- The number of positions marked `present` whose guessed character is `k`. -/
def presentOcc (guessHex : List Char) (feedback : List Mark) (k : Option Char) : Nat :=
  (List.range 6).countP fun i => decide (markAt feedback i = Mark.present ∧ guessHex[i]? = k)

/-- The number of positions marked `absent` whose guessed character is `k`. -/
def absentOcc (guessHex : List Char) (feedback : List Mark) (k : Option Char) : Nat :=
  (List.range 6).countP fun i => decide (markAt feedback i = Mark.absent ∧ guessHex[i]? = k)

/-- The digits of the target at the positions where it differs from the guess,
in order: the pool the `present` marks draw from. -/
def targetPool (t g : List Char) : List Char :=
  ((t.zip g).filter fun p => decide (p.1 ≠ p.2)).map Prod.fst

/-- The left-to-right scan of the standard word-game feedback over the
(target digit, guessed digit) pairs, with `m` the unconsumed occurrences: equal
digits are `correct`; otherwise the guessed digit is `present` if it still has an
unconsumed occurrence, which it consumes, and `absent` if not. -/
def scanFeedback : List (Char × Char) → (Char → Nat) → List Mark
  | [], _ => []
  | p :: rest, m =>
    if p.1 = p.2 then Mark.correct :: scanFeedback rest m
    else if 0 < m p.2 then
      Mark.present :: scanFeedback rest (fun c => if c = p.2 then m c - 1 else m c)
    else Mark.absent :: scanFeedback rest m

/-- The standard word-game feedback of the guess `g` against the target `t`. -/
def wordleFeedback (t g : List Char) : List Mark :=
  scanFeedback (t.zip g) (fun c => (targetPool t g).count c)

/-- A pool of characters as a counter object. -/
def liftPool (m : Char → Nat) : CharCounts
  | some c => m c
  | none => 0

/-- The `remainingGuess` records of a list of (target, guess) pairs and their marks. -/
def rgOf (ps : List (Char × Char)) (marks : List Mark) : List (Option Char × Mark) :=
  ((ps.zip marks).filter fun q => decide (q.2 ≠ Mark.correct)).map
    fun q => (some q.1.2, q.2)

/-- The `remainingTarget` characters of a list of (target, guess) pairs and their marks. -/
def rtOf (ps : List (Char × Char)) (marks : List Mark) : List (Option Char) :=
  ((ps.zip marks).filter fun q => decide (q.2 ≠ Mark.correct)).map
    fun q => some q.1.1

/-- The number of `present` records of `rg` carrying the key `k`. -/
def presentIn (rg : List (Option Char × Mark)) (k : Option Char) : Nat :=
  rg.countP fun g => decide (g.2 = Mark.present ∧ g.1 = k)

/-- The counting rule of the filter for one guess record: the `correct` positions
agree, and for every character the `present` marks do not exceed the candidate's
occurrences outside the `correct` positions, with equality as soon as the character
is marked `absent` somewhere. -/
def CountingRule (hex guessHex : List Char) (feedback : List Mark) : Prop :=
  (∀ i, i < 6 → markAt feedback i = Mark.correct → hex[i]? = guessHex[i]?) ∧
  ∀ c : Char,
    presentOcc guessHex feedback (some c) ≤ nonCorrectOcc hex feedback (some c) ∧
    (0 < absentOcc guessHex feedback (some c) →
      nonCorrectOcc hex feedback (some c) = presentOcc guessHex feedback (some c))

end ColordleSolver

namespace ColordleSolver

/-! ## Basic facts -/

theorem toUpperCase_length (s : List Char) : (toUpperCase s).length = s.length := by
  simp [toUpperCase]

theorem range_six : List.range 6 = [0, 1, 2, 3, 4, 5] := by decide

theorem length_six {α : Type} (l : List α) (h : l.length = 6) :
    ∃ a b c d e f, l = [a, b, c, d, e, f] := by
  match l, h with
  | [a, b, c, d, e, f], _ => exact ⟨a, b, c, d, e, f, rfl⟩

theorem keepColor_append (h1 h2 : List Guess) (c : Color) :
    keepColor (h1 ++ h2) c = (keepColor h1 c && keepColor h2 c) := by
  unfold keepColor
  by_cases h : (normalizeHex c.hex).length = 6 <;> simp [h, List.all_append]

/-! ## The counters -/

theorem foldl_bump (rt : List (Option Char)) (m : CharCounts) (k : Option Char) :
    rt.foldl bump m k = m k + rt.count k := by
  induction rt generalizing m with
  | nil => simp
  | cons a rt ih =>
    simp only [List.foldl_cons, ih, bump, List.count_cons]
    by_cases h : k = a
    · subst h; simp; omega
    · have h2 : ¬ (a == k) = true := by simpa using fun e => h e.symm
      simp [h, h2]

theorem targetCharCounts_apply (rt : List (Option Char)) (k : Option Char) :
    targetCharCounts rt k = rt.count k := by
  simp [targetCharCounts, foldl_bump]

theorem presentIn_cons (g : Option Char × Mark) (rg : List (Option Char × Mark))
    (k : Option Char) :
    presentIn (g :: rg) k
      = presentIn rg k + (if g.2 = Mark.present ∧ g.1 = k then 1 else 0) := by
  simp [presentIn, List.countP_cons]

theorem checkPresent_some (rg : List (Option Char × Mark)) (m : CharCounts)
    (h : ∀ k, presentIn rg k ≤ m k) :
    checkPresent rg m = some (fun k => m k - presentIn rg k) := by
  induction rg generalizing m with
  | nil => simp [checkPresent, presentIn]
  | cons g rg ih =>
    by_cases hp : g.2 = Mark.present
    · have hg := h g.1
      rw [presentIn_cons] at hg
      simp only [hp, true_and, if_true] at hg
      have hne : m g.1 ≠ 0 := by omega
      simp only [checkPresent, hp, if_true, hne, if_false]
      rw [ih]
      · congr 1
        funext k
        rw [presentIn_cons]
        by_cases hk : g.1 = k
        · subst hk; simp [consume, hp]; omega
        · have hk2 : ¬ k = g.1 := fun e => hk e.symm
          simp [consume, hk, hk2]
      · intro k
        have hk := h k
        rw [presentIn_cons] at hk
        by_cases hk1 : g.1 = k
        · subst hk1; simp [consume, hp] at hk ⊢; omega
        · have hk2 : ¬ k = g.1 := fun e => hk1 e.symm
          simp [consume, hk1, hk2] at hk ⊢; omega
    · simp only [checkPresent, hp, if_false]
      rw [ih]
      · congr 1
        funext k
        rw [presentIn_cons]
        simp [hp]
      · intro k
        have hk := h k
        rw [presentIn_cons] at hk
        simpa [hp] using hk

theorem checkPresent_none (rg : List (Option Char × Mark)) (m : CharCounts)
    (h : ∃ k, m k < presentIn rg k) : checkPresent rg m = none := by
  induction rg generalizing m with
  | nil => obtain ⟨k, hk⟩ := h; simp [presentIn] at hk
  | cons g rg ih =>
    obtain ⟨k, hk⟩ := h
    rw [presentIn_cons] at hk
    by_cases hp : g.2 = Mark.present
    · simp only [checkPresent, hp, if_true]
      by_cases h0 : m g.1 = 0
      · simp [h0]
      · simp only [h0, if_false]
        apply ih
        refine ⟨k, ?_⟩
        by_cases hk1 : g.1 = k
        · subst hk1; simp [consume, hp] at hk ⊢; omega
        · have hk2 : ¬ k = g.1 := fun e => hk1 e.symm
          simp [consume, hk1, hk2] at hk ⊢; omega
    · simp only [checkPresent, hp, if_false]
      apply ih
      exact ⟨k, by simpa [hp] using hk⟩

theorem checkAbsent_iff (rg : List (Option Char × Mark)) (m : CharCounts) :
    checkAbsent rg m = true ↔ ∀ g ∈ rg, g.2 = Mark.absent → m g.1 = 0 := by
  simp only [checkAbsent, List.all_eq_true]
  constructor
  · intro h g hg ha
    have := h g hg
    simpa [ha] using this
  · intro h g hg
    by_cases ha : g.2 = Mark.absent
    · simpa [ha] using h g hg ha
    · simp [ha]

/-! ## From the loops to the position counts -/

theorem remainingTarget_count (hex : List Char) (fb : List Mark) (k : Option Char) :
    (remainingTarget hex fb).count k = nonCorrectOcc hex fb k := by
  unfold remainingTarget nonCorrectOcc
  rw [List.count_eq_countP, List.countP_map, List.countP_filter]
  apply List.countP_congr
  intro i _
  by_cases h1 : markAt fb i = Mark.correct <;> by_cases h2 : hex[i]? = k <;> simp [h1, h2]

theorem remainingGuess_present (gh : List Char) (fb : List Mark) (k : Option Char) :
    presentIn (remainingGuess gh fb) k = presentOcc gh fb k := by
  unfold remainingGuess presentOcc presentIn
  rw [List.countP_map, List.countP_filter]
  apply List.countP_congr
  intro i _
  by_cases h1 : markAt fb i = Mark.correct <;> by_cases h2 : gh[i]? = k <;>
    by_cases h3 : markAt fb i = Mark.present <;> simp_all

theorem remainingGuess_absent (gh : List Char) (fb : List Mark) (k : Option Char) :
    (∃ g ∈ remainingGuess gh fb, g.2 = Mark.absent ∧ g.1 = k) ↔ 0 < absentOcc gh fb k := by
  unfold remainingGuess absentOcc
  rw [List.countP_pos_iff]
  constructor
  · rintro ⟨g, hg, ha, hk⟩
    simp only [List.mem_map, List.mem_filter] at hg
    obtain ⟨i, ⟨hi, _⟩, rfl⟩ := hg
    exact ⟨i, hi, by simpa using ⟨ha, hk⟩⟩
  · rintro ⟨i, hi, h⟩
    have h2 : markAt fb i = Mark.absent ∧ gh[i]? = k := by simpa using h
    refine ⟨(gh[i]?, markAt fb i), ?_, h2.1, h2.2⟩
    simp only [List.mem_map, List.mem_filter]
    exact ⟨i, ⟨hi, by simp [h2.1]⟩, rfl⟩

theorem correctPass_iff (hex gh : List Char) (fb : List Mark) :
    correctPass hex gh fb = true ↔
      ∀ i, i < 6 → markAt fb i = Mark.correct → hex[i]? = gh[i]? := by
  simp only [correctPass, List.all_eq_true, List.mem_range]
  constructor
  · intro h i hi hc
    simpa [hc] using h i hi
  · intro h i hi
    by_cases hc : markAt fb i = Mark.correct
    · simpa [hc] using h i hi hc
    · simp [hc]

/-- The callback of `guesses.every`, characterised over all keys of the counter
object (characters and the key of an out-of-range read). -/
theorem satisfiesGuess_iff_keys (hex : List Char) (guess : Guess) :
    satisfiesGuess hex guess = true ↔
      (∀ i, i < 6 → markAt guess.feedback i = Mark.correct →
        hex[i]? = (toUpperCase guess.hex)[i]?) ∧
      ∀ k : Option Char,
        presentOcc (toUpperCase guess.hex) guess.feedback k
            ≤ nonCorrectOcc hex guess.feedback k ∧
        (0 < absentOcc (toUpperCase guess.hex) guess.feedback k →
          nonCorrectOcc hex guess.feedback k
            = presentOcc (toUpperCase guess.hex) guess.feedback k) := by
  unfold satisfiesGuess
  simp only
  by_cases hc : correctPass hex (toUpperCase guess.hex) guess.feedback = true
  · rw [if_pos hc]
    have hc2 := (correctPass_iff _ _ _).1 hc
    by_cases hp : ∀ k, presentIn (remainingGuess (toUpperCase guess.hex) guess.feedback) k
        ≤ targetCharCounts (remainingTarget hex guess.feedback) k
    · rw [checkPresent_some _ _ hp]
      simp only [checkAbsent_iff]
      constructor
      · intro h
        refine ⟨hc2, fun k => ⟨?_, ?_⟩⟩
        · have := hp k
          rwa [remainingGuess_present, targetCharCounts_apply, remainingTarget_count] at this
        · intro ha
          obtain ⟨g, hg, ha1, hk⟩ := (remainingGuess_absent _ _ _).2 ha
          have h1 := h g hg ha1
          have h2 := hp k
          rw [hk] at h1
          rw [remainingGuess_present, targetCharCounts_apply, remainingTarget_count] at h1 h2
          omega
      · rintro ⟨_, h⟩ g hg ha
        have h1 := (h g.1).2 ((remainingGuess_absent _ _ _).1 ⟨g, hg, ha, rfl⟩)
        rw [remainingGuess_present, targetCharCounts_apply, remainingTarget_count]
        omega
    · have hp2 : ∃ k, targetCharCounts (remainingTarget hex guess.feedback) k
          < presentIn (remainingGuess (toUpperCase guess.hex) guess.feedback) k := by
        by_contra hcon
        exact hp fun k => Nat.le_of_not_lt fun hk => hcon ⟨k, hk⟩
      rw [checkPresent_none _ _ hp2]
      obtain ⟨k, hk⟩ := hp2
      rw [remainingGuess_present, targetCharCounts_apply, remainingTarget_count] at hk
      constructor
      · intro h; exact absurd h (by simp)
      · rintro ⟨_, h⟩
        have := (h k).1
        omega
  · rw [if_neg hc]
    constructor
    · intro h; exact absurd h (by simp)
    · rintro ⟨h, _⟩
      exact absurd ((correctPass_iff _ _ _).2 h) hc

theorem occ_none_of_length (s : List Char) (hs : s.length = 6) (i : Nat) (hi : i < 6) :
    s[i]? ≠ none := by
  simp [List.getElem?_eq_none_iff]; omega

/-- The callback of `guesses.every` against the counting rule over characters. -/
theorem satisfiesGuess_iff_rule (hex : List Char) (guess : Guess)
    (hg : guess.hex.length = 6) :
    satisfiesGuess hex guess = true ↔
      CountingRule hex (toUpperCase guess.hex) guess.feedback := by
  rw [satisfiesGuess_iff_keys]
  unfold CountingRule
  constructor
  · rintro ⟨h1, h2⟩
    exact ⟨h1, fun c => h2 (some c)⟩
  · rintro ⟨h1, h2⟩
    refine ⟨h1, fun k => ?_⟩
    cases k with
    | some c => exact h2 c
    | none =>
      have hG : (toUpperCase guess.hex).length = 6 := by rw [toUpperCase_length]; exact hg
      have e1 : presentOcc (toUpperCase guess.hex) guess.feedback none = 0 := by
        unfold presentOcc
        rw [List.countP_eq_zero]
        intro i hi
        have := occ_none_of_length _ hG i (List.mem_range.1 hi)
        simp [this]
      have e2 : absentOcc (toUpperCase guess.hex) guess.feedback none = 0 := by
        unfold absentOcc
        rw [List.countP_eq_zero]
        intro i hi
        have := occ_none_of_length _ hG i (List.mem_range.1 hi)
        simp [this]
      rw [e1, e2]
      exact ⟨Nat.zero_le _, fun h => absurd h (by simp)⟩

/-! ## Uniform feedback -/

theorem markAt_allMarks (m : Mark) (i : Nat) (hi : i < 6) : markAt (allMarks m) i = m := by
  have h6 := range_six
  unfold markAt allMarks
  interval_cases i <;> rfl

theorem filter_single (db : List Color) (guess : Guess) :
    filterColorsByWordleHints db [guess] = db.filter (keepColor [guess]) := by
  simp [filterColorsByWordleHints]

theorem keepColor_single (guess : Guess) (c : Color) :
    keepColor [guess] c
      = (decide ((normalizeHex c.hex).length = 6) && satisfiesGuess (normalizeHex c.hex) guess) := by
  unfold keepColor
  by_cases h : (normalizeHex c.hex).length = 6 <;> simp [h]

/-! ## The standard feedback passes the filter -/

theorem scanFeedback_length (ps : List (Char × Char)) (m : Char → Nat) :
    (scanFeedback ps m).length = ps.length := by
  induction ps generalizing m with
  | nil => rfl
  | cons p ps ih =>
    unfold scanFeedback
    split_ifs <;> simp [ih]

theorem scanFeedback_correct (ps : List (Char × Char)) (m : Char → Nat) :
    ∀ q ∈ ps.zip (scanFeedback ps m), q.2 = Mark.correct → q.1.1 = q.1.2 := by
  induction ps generalizing m with
  | nil => intro q hq; simp at hq
  | cons p ps ih =>
    intro q hq hc
    unfold scanFeedback at hq
    split_ifs at hq with h1 h2 <;> simp only [List.zip_cons_cons, List.mem_cons] at hq
    · rcases hq with rfl | hq
      · exact h1
      · exact ih _ q hq hc
    · rcases hq with rfl | hq
      · exact absurd hc (by simp)
      · exact ih _ q hq hc
    · rcases hq with rfl | hq
      · exact absurd hc (by simp)
      · exact ih _ q hq hc

theorem rtOf_scanFeedback (ps : List (Char × Char)) (m : Char → Nat) :
    rtOf ps (scanFeedback ps m)
      = ((ps.filter fun p => decide (p.1 ≠ p.2)).map Prod.fst).map some := by
  induction ps generalizing m with
  | nil => rfl
  | cons p ps ih =>
    unfold scanFeedback
    unfold rtOf at ih ⊢
    simp only [ne_eq, decide_not, List.map_map] at ih
    split_ifs with h1 h2
    · simp [List.filter_cons, h1, ih]
    · simp [List.filter_cons, h1, ih]
    · simp [List.filter_cons, h1, ih]

theorem consume_liftPool (m : Char → Nat) (b : Char) :
    consume (liftPool m) (some b) = liftPool (fun c => if c = b then m c - 1 else m c) := by
  funext k
  cases k with
  | none => simp [consume, liftPool]
  | some c => simp [consume, liftPool]

theorem scanFeedback_sound (ps : List (Char × Char)) (m : Char → Nat) :
    ∃ m2 : Char → Nat,
      checkPresent (rgOf ps (scanFeedback ps m)) (liftPool m) = some (liftPool m2) ∧
      (∀ c, m2 c ≤ m c) ∧
      ∀ q ∈ rgOf ps (scanFeedback ps m), q.2 = Mark.absent → liftPool m2 q.1 = 0 := by
  induction ps generalizing m with
  | nil => exact ⟨m, rfl, fun _ => Nat.le_refl _, fun q hq => by simp [rgOf, scanFeedback] at hq⟩
  | cons p ps ih =>
    unfold scanFeedback
    split_ifs with h1 h2
    · obtain ⟨m2, e, hle, ha⟩ := ih m
      have hr : rgOf (p :: ps) (Mark.correct :: scanFeedback ps m)
          = rgOf ps (scanFeedback ps m) := by simp [rgOf, List.filter_cons]
      rw [hr]
      exact ⟨m2, e, hle, ha⟩
    · obtain ⟨m2, e, hle, ha⟩ := ih (fun c => if c = p.2 then m c - 1 else m c)
      have hr : rgOf (p :: ps)
            (Mark.present :: scanFeedback ps (fun c => if c = p.2 then m c - 1 else m c))
          = (some p.2, Mark.present)
              :: rgOf ps (scanFeedback ps (fun c => if c = p.2 then m c - 1 else m c)) := by
        simp [rgOf, List.filter_cons]
      rw [hr]
      refine ⟨m2, ?_, ?_, ?_⟩
      · have hne : liftPool m (some p.2) ≠ 0 := by simp [liftPool]; omega
        simp only [checkPresent, if_true, hne, if_false]
        rw [consume_liftPool]
        exact e
      · intro c
        have := hle c
        by_cases hc : c = p.2
        · simp [hc] at this ⊢; omega
        · simpa [hc] using this
      · intro q hq hqa
        simp only [List.mem_cons] at hq
        rcases hq with rfl | hq
        · exact absurd hqa (by simp)
        · exact ha q hq hqa
    · obtain ⟨m2, e, hle, ha⟩ := ih m
      have hr : rgOf (p :: ps) (Mark.absent :: scanFeedback ps m)
          = (some p.2, Mark.absent) :: rgOf ps (scanFeedback ps m) := by
        simp [rgOf, List.filter_cons]
      rw [hr]
      refine ⟨m2, ?_, hle, ?_⟩
      · simp only [checkPresent]
        rw [if_neg (by simp)]
        exact e
      · intro q hq hqa
        simp only [List.mem_cons] at hq
        rcases hq with rfl | hq
        · have := hle p.2
          simp only [liftPool]
          omega
        · exact ha q hq hqa

theorem remainingGuess_eq_rgOf (t gh : List Char) (fb : List Mark) (ht : t.length = 6)
    (hg : gh.length = 6) (hf : fb.length = 6) :
    remainingGuess gh fb = rgOf (t.zip gh) fb := by
  have e1 : remainingGuess gh fb
      = (((List.range 6).map fun i => (gh[i]?, markAt fb i)).filter
          fun q => decide (q.2 ≠ Mark.correct)) := by
    unfold remainingGuess
    rw [List.filter_map]
    rfl
  have e2 : rgOf (t.zip gh) fb
      = ((((t.zip gh).zip fb).map fun q => (some q.1.2, q.2)).filter
          fun q => decide (q.2 ≠ Mark.correct)) := by
    unfold rgOf
    rw [List.filter_map]
    rfl
  rw [e1, e2]
  congr 1
  obtain ⟨t0, t1, t2, t3, t4, t5, rfl⟩ := length_six t ht
  obtain ⟨g0, g1, g2, g3, g4, g5, rfl⟩ := length_six gh hg
  obtain ⟨f0, f1, f2, f3, f4, f5, rfl⟩ := length_six fb hf
  simp [range_six, markAt]

theorem remainingTarget_eq_rtOf (t gh : List Char) (fb : List Mark) (ht : t.length = 6)
    (hg : gh.length = 6) (hf : fb.length = 6) :
    remainingTarget t fb = rtOf (t.zip gh) fb := by
  have e1 : remainingTarget t fb
      = ((((List.range 6).map fun i => (t[i]?, markAt fb i)).filter
          fun q => decide (q.2 ≠ Mark.correct)).map Prod.fst) := by
    unfold remainingTarget
    rw [List.filter_map, List.map_map]
    rfl
  have e2 : rtOf (t.zip gh) fb
      = (((((t.zip gh).zip fb).map fun q => (some q.1.1, q.2)).filter
          fun q => decide (q.2 ≠ Mark.correct)).map Prod.fst) := by
    unfold rtOf
    rw [List.filter_map, List.map_map]
    rfl
  rw [e1, e2]
  congr 2
  obtain ⟨t0, t1, t2, t3, t4, t5, rfl⟩ := length_six t ht
  obtain ⟨g0, g1, g2, g3, g4, g5, rfl⟩ := length_six gh hg
  obtain ⟨f0, f1, f2, f3, f4, f5, rfl⟩ := length_six fb hf
  simp [range_six, markAt]

theorem correctPass_of_zip (t gh : List Char) (fb : List Mark) (ht : t.length = 6)
    (hg : gh.length = 6) (hf : fb.length = 6)
    (h : ∀ q ∈ (t.zip gh).zip fb, q.2 = Mark.correct → q.1.1 = q.1.2) :
    correctPass t gh fb = true := by
  obtain ⟨t0, t1, t2, t3, t4, t5, rfl⟩ := length_six t ht
  obtain ⟨g0, g1, g2, g3, g4, g5, rfl⟩ := length_six gh hg
  obtain ⟨f0, f1, f2, f3, f4, f5, rfl⟩ := length_six fb hf
  rw [correctPass_iff]
  intro i hi hc
  interval_cases i <;> simp [markAt] at hc ⊢
  · exact h ((t0, g0), f0) (by simp) hc
  · exact h ((t1, g1), f1) (by simp) hc
  · exact h ((t2, g2), f2) (by simp) hc
  · exact h ((t3, g3), f3) (by simp) hc
  · exact h ((t4, g4), f4) (by simp) hc
  · exact h ((t5, g5), f5) (by simp) hc

theorem count_map_some (l : List Char) (k : Option Char) :
    (l.map some).count k = liftPool (fun c => l.count c) k := by
  induction l with
  | nil => cases k <;> simp [liftPool]
  | cons a l ih =>
    cases k with
    | none => simpa [liftPool, List.count_cons] using ih
    | some c =>
      simp only [List.map_cons, List.count_cons, ih, liftPool]
      by_cases h : a = c <;> simp [h]

/-- A candidate passes the callback of `guesses.every` for the standard feedback
of any guess against itself. -/
theorem satisfiesGuess_wordleFeedback (t g : List Char) (ht : t.length = 6)
    (hg : g.length = 6) :
    satisfiesGuess t ⟨g, wordleFeedback t (toUpperCase g)⟩ = true := by
  have hG : (toUpperCase g).length = 6 := by rw [toUpperCase_length]; exact hg
  have hf : (wordleFeedback t (toUpperCase g)).length = 6 := by
    unfold wordleFeedback
    rw [scanFeedback_length]
    simp [ht, hG]
  unfold satisfiesGuess
  simp only
  rw [if_pos (correctPass_of_zip t _ _ ht hG hf (scanFeedback_correct _ _))]
  rw [remainingGuess_eq_rgOf t _ _ ht hG hf, remainingTarget_eq_rtOf t _ _ ht hG hf]
  have hm : targetCharCounts (rtOf (t.zip (toUpperCase g)) (wordleFeedback t (toUpperCase g)))
      = liftPool (fun c => (targetPool t (toUpperCase g)).count c) := by
    funext k
    rw [targetCharCounts_apply]
    unfold wordleFeedback
    rw [rtOf_scanFeedback, count_map_some]
    rfl
  rw [hm]
  obtain ⟨m2, e, _, ha⟩ := scanFeedback_sound (t.zip (toUpperCase g))
    (fun c => (targetPool t (toUpperCase g)).count c)
  unfold wordleFeedback
  rw [e]
  exact (checkAbsent_iff _ _).2 ha

/-! ## The converters -/

theorem toDigitsCore_step (f n : Nat) (ds : List Char) :
    Nat.toDigitsCore 16 (f + 1) n ds
      = if n / 16 = 0 then Nat.digitChar (n % 16) :: ds
        else Nat.toDigitsCore 16 f (n / 16) (Nat.digitChar (n % 16) :: ds) := by
  simp [Nat.toDigitsCore]

theorem toDigits_seven (n : Nat) (h1 : 16777216 ≤ n) (h2 : n < 33554432) :
    Nat.toDigits 16 n
      = [Nat.digitChar 1, Nat.digitChar (n / 1048576 % 16), Nat.digitChar (n / 65536 % 16),
         Nat.digitChar (n / 4096 % 16), Nat.digitChar (n / 256 % 16),
         Nat.digitChar (n / 16 % 16), Nat.digitChar (n % 16)] := by
  unfold Nat.toDigits
  obtain ⟨k, hk⟩ : ∃ k, n + 1 = k + 7 := ⟨n - 6, by omega⟩
  rw [hk]
  rw [toDigitsCore_step, if_neg (by omega), toDigitsCore_step, if_neg (by omega),
    toDigitsCore_step, if_neg (by omega), toDigitsCore_step, if_neg (by omega),
    toDigitsCore_step, if_neg (by omega), toDigitsCore_step, if_neg (by omega),
    toDigitsCore_step, if_pos (by omega)]
  have e6 : n / 16 / 16 / 16 / 16 / 16 / 16 % 16 = 1 := by omega
  have e5 : n / 16 / 16 / 16 / 16 / 16 % 16 = n / 1048576 % 16 := by omega
  have e4 : n / 16 / 16 / 16 / 16 % 16 = n / 65536 % 16 := by omega
  have e3 : n / 16 / 16 / 16 % 16 = n / 4096 % 16 := by omega
  have e2 : n / 16 / 16 % 16 = n / 256 % 16 := by omega
  rw [e6, e5, e4, e3, e2]

theorem upper_digitChar : ∀ d, d < 16 → Char.toUpper (Nat.digitChar d) = upperHexDigit d := by
  decide

theorem hexClass_upperHexDigit : ∀ d, d < 16 → hexClass (upperHexDigit d) = true := by
  decide

theorem hexDigitValue_upperHexDigit : ∀ d, d < 16 → hexDigitValue (upperHexDigit d) = d := by
  decide

theorem shiftLeft_one : shiftLeft 1 24 = 16777216 := by decide

theorem shiftLeft_channel (x : Nat) (k : Nat) (hx : x < 256) (hk : k = 16 ∨ k = 8) :
    shiftLeft (x : Int) k = ((x * 2 ^ k : Nat) : Int) := by
  unfold shiftLeft toInt32
  rcases hk with rfl | rfl
  · simp only
    norm_num
    have h1 : (x : Int) % 4294967296 = x := by omega
    rw [h1]
    have h2 : ¬ (2147483648 : Int) ≤ x := by omega
    rw [if_neg h2]
    have h3 : (x : Int) * 65536 % 4294967296 = x * 65536 := by omega
    rw [h3]
    have h4 : ¬ (2147483648 : Int) ≤ x * 65536 := by omega
    rw [if_neg h4]
  · simp only
    norm_num
    have h1 : (x : Int) % 4294967296 = x := by omega
    rw [h1]
    have h2 : ¬ (2147483648 : Int) ≤ x := by omega
    rw [if_neg h2]
    have h3 : (x : Int) * 256 % 4294967296 = x * 256 := by omega
    rw [h3]
    have h4 : ¬ (2147483648 : Int) ≤ x * 256 := by omega
    rw [if_neg h4]

/-- On channels in `[0, 255]`, `rgbToHex` is `#` followed by the three two-digit
uppercase encodings. -/
theorem rgbToHex_channels (r g b : Nat) (hr : r < 256) (hg : g < 256) (hb : b < 256) :
    rgbToHex (r : Int) (g : Int) (b : Int)
      = '#' :: (upperHexPair r ++ upperHexPair g ++ upperHexPair b) := by
  unfold rgbToHex
  rw [shiftLeft_one, shiftLeft_channel r 16 hr (Or.inl rfl),
    shiftLeft_channel g 8 hg (Or.inr rfl)]
  have hn : (16777216 : Int) + ((r * 2 ^ 16 : Nat) : Int) + ((g * 2 ^ 8 : Nat) : Int) + (b : Int)
      = ((16777216 + r * 65536 + g * 256 + b : Nat) : Int) := by
    push_cast
    norm_num
  rw [hn]
  unfold numberToString16
  rw [if_neg (by omega), Int.natAbs_ofNat,
    toDigits_seven _ (by omega) (by omega)]
  simp only [List.drop_succ_cons, List.drop_zero, toUpperCase, List.map_cons, List.map_nil]
  rw [upper_digitChar _ (Nat.mod_lt _ (by decide)), upper_digitChar _ (Nat.mod_lt _ (by decide)),
    upper_digitChar _ (Nat.mod_lt _ (by decide)), upper_digitChar _ (Nat.mod_lt _ (by decide)),
    upper_digitChar _ (Nat.mod_lt _ (by decide)), upper_digitChar _ (Nat.mod_lt _ (by decide))]
  have e1 : (16777216 + r * 65536 + g * 256 + b) / 1048576 % 16 = r / 16 := by omega
  have e2 : (16777216 + r * 65536 + g * 256 + b) / 65536 % 16 = r % 16 := by omega
  have e3 : (16777216 + r * 65536 + g * 256 + b) / 4096 % 16 = g / 16 := by omega
  have e4 : (16777216 + r * 65536 + g * 256 + b) / 256 % 16 = g % 16 := by omega
  have e5 : (16777216 + r * 65536 + g * 256 + b) / 16 % 16 = b / 16 := by omega
  have e6 : (16777216 + r * 65536 + g * 256 + b) % 16 = b % 16 := by omega
  rw [e1, e2, e3, e4, e5, e6]
  rfl

theorem parseInt16_upperHexPair (n : Nat) (hn : n < 256) :
    parseInt16 (upperHexPair n) = (n : Int) := by
  unfold parseInt16 upperHexPair
  simp only [List.foldl_cons, List.foldl_nil]
  rw [hexDigitValue_upperHexDigit _ (by omega), hexDigitValue_upperHexDigit _ (by omega)]
  congr 1
  omega

theorem hexToRgb_channels (r g b : Nat) (hr : r < 256) (hg : g < 256) (hb : b < 256) :
    hexToRgb ('#' :: (upperHexPair r ++ upperHexPair g ++ upperHexPair b))
      = some ⟨(r : Int), (g : Int), (b : Int)⟩ := by
  have p1 := parseInt16_upperHexPair r hr
  have p2 := parseInt16_upperHexPair g hg
  have p3 := parseInt16_upperHexPair b hb
  unfold upperHexPair at p1 p2 p3 ⊢
  simp only [hexToRgb, hexRegexExec, matchGroups, List.cons_append, List.nil_append, if_true,
    hexClass_upperHexDigit _ (show r / 16 < 16 by omega),
    hexClass_upperHexDigit _ (show g / 16 < 16 by omega),
    hexClass_upperHexDigit _ (show b / 16 < 16 by omega),
    hexClass_upperHexDigit _ (Nat.mod_lt r (by decide : 0 < 16)),
    hexClass_upperHexDigit _ (Nat.mod_lt g (by decide : 0 < 16)),
    hexClass_upperHexDigit _ (Nat.mod_lt b (by decide : 0 < 16)),
    Bool.and_self, p1, p2, p3]

theorem hexClass_eq_isHexDigit (c : Char) : hexClass c = isHexDigit c := by
  by_cases h : isHexDigit c = true
  · rw [h]
    have hm : c ∈ "0123456789abcdefABCDEF".toList := by
      simpa [isHexDigit] using h
    simp only [String.toList, List.mem_cons, List.mem_nil_iff, or_false] at hm
    rcases hm with h | h | h | h | h | h | h | h | h | h | h | h | h | h | h | h | h | h | h |
      h | h | h <;> subst h <;> decide
  · have hf : isHexDigit c = false := by simpa using h
    rw [hf]
    by_contra hc
    have hc2 : hexClass c = true := by simpa using hc
    obtain ⟨n, hn⟩ : ∃ n, c.toNat = n := ⟨_, rfl⟩
    have hcn : c = Char.ofNat n := by rw [← hn, Char.ofNat_toNat]
    have key : ∀ a b : Char, a ≤ b ↔ a.toNat ≤ b.toNat := fun _ _ => Iff.rfl
    have hr : (97 ≤ n ∧ n ≤ 102) ∨ (65 ≤ n ∧ n ≤ 70) ∨ (48 ≤ n ∧ n ≤ 57) := by
      simp only [hexClass, Bool.or_eq_true, Bool.and_eq_true, decide_eq_true_eq, key, hn] at hc2
      have e1 : 'a'.toNat = 97 := rfl
      have e2 : 'f'.toNat = 102 := rfl
      have e3 : 'A'.toNat = 65 := rfl
      have e4 : 'F'.toNat = 70 := rfl
      have e5 : '0'.toNat = 48 := rfl
      have e6 : '9'.toNat = 57 := rfl
      rw [e1, e2, e3, e4, e5, e6] at hc2
      rcases hc2 with (h | h) | h
      · exact Or.inl h
      · exact Or.inr (Or.inl h)
      · exact Or.inr (Or.inr h)
    rcases hr with ⟨h1, h2⟩ | ⟨h1, h2⟩ | ⟨h1, h2⟩ <;> interval_cases n <;> subst hcn <;>
      exact absurd hf (by decide)

theorem matchGroups_isSome (s : List Char) :
    (matchGroups s).isSome = (s.length == 6 && s.all hexClass) := by
  by_cases h6 : s.length = 6
  · obtain ⟨a, b, c, d, e, f, rfl⟩ := length_six s h6
    simp only [matchGroups]
    by_cases h : (hexClass a && hexClass b && hexClass c && hexClass d && hexClass e
        && hexClass f) = true
    · rw [if_pos h]
      simp only [Bool.and_eq_true] at h
      simp [h]
    · rw [if_neg h]
      simp only [Bool.and_eq_true, not_and, Bool.not_eq_true] at h
      simp only [Option.isSome_none, List.length_cons, List.length_nil, List.all_cons,
        List.all_nil, Bool.and_true]
      symm
      simp only [Bool.and_eq_false_iff]
      right
      by_contra hcon
      simp only [not_or, Bool.not_eq_false] at hcon
      obtain ⟨ha, hb, hc, hd, he, hf⟩ := hcon
      have := h ⟨⟨⟨⟨ha, hb⟩, hc⟩, hd⟩, he⟩
      simp [hf] at this
  · have hn : matchGroups s = none := by
      unfold matchGroups
      split
      · exact absurd rfl h6
      · rfl
    rw [hn]
    simp [h6]

theorem matchGroups_hash (t : List Char) : matchGroups ('#' :: t) = none := by
  have h := matchGroups_isSome ('#' :: t)
  have hc : hexClass '#' = false := by decide
  simp only [List.all_cons, hc, Bool.false_and, Bool.and_false] at h
  cases hm : matchGroups ('#' :: t) with
  | none => rfl
  | some r => rw [hm] at h; simp at h

theorem hexToRgb_isSome (s : List Char) : (hexToRgb s).isSome = isSixDigitHex s := by
  have e : (hexToRgb s).isSome = (hexRegexExec s).isSome := by
    unfold hexToRgb
    cases hexRegexExec s with
    | none => rfl
    | some r => rfl
  rw [e]
  have hcls : (fun c => hexClass c) = isHexDigit := funext hexClass_eq_isHexDigit
  cases s with
  | nil => rfl
  | cons c t =>
    by_cases hc : c = '#'
    · subst hc
      have h1 : (hexRegexExec ('#' :: t)).isSome = (matchGroups t).isSome := by
        simp only [hexRegexExec, if_true, matchGroups_hash]
        cases matchGroups t <;> rfl
      rw [h1, matchGroups_isSome]
      simp [isSixDigitHex, ← hcls]
    · have h1 : hexRegexExec (c :: t) = matchGroups (c :: t) := by
        simp only [hexRegexExec, hc, if_false]
      rw [h1, matchGroups_isSome]
      simp [isSixDigitHex, hc, ← hcls]

theorem keepColor_mem_filter (db : List Color) (guess : Guess) (c : Color) :
    c ∈ filterColorsByWordleHints db [guess] ↔
      c ∈ db ∧ (normalizeHex c.hex).length = 6 ∧
        satisfiesGuess (normalizeHex c.hex) guess = true := by
  rw [filter_single, List.mem_filter, keepColor_single]
  simp

/-! ## The claims -/

/-- C1. For a candidate whose normalised hex has six characters and a guess record
with a six-character hex, the per-guess test of `filterColorsByWordleHints` holds
exactly when the counting rule holds: the `correct` positions agree and, for every
character `c`, with `n` its occurrences among the candidate's non-correct positions,
`p` the `present` positions guessing `c` and `a` the `absent` ones, `p ≤ n` and
`a > 0 → n = p`. The same rule decides membership in the filtered list of a
one-record history. (Nothing is assumed about the feedback marks.) -/
theorem C1_per_guess_counting_rule (color : Color) (guess : Guess)
    (hc : (normalizeHex color.hex).length = 6) (hg : guess.hex.length = 6) :
    (satisfiesGuess (normalizeHex color.hex) guess = true ↔
        CountingRule (normalizeHex color.hex) (toUpperCase guess.hex) guess.feedback) ∧
    ∀ db : List Color, color ∈ filterColorsByWordleHints db [guess] ↔
      color ∈ db ∧
        CountingRule (normalizeHex color.hex) (toUpperCase guess.hex) guess.feedback := by
  refine ⟨satisfiesGuess_iff_rule _ _ hg, fun db => ?_⟩
  rw [keepColor_mem_filter, satisfiesGuess_iff_rule _ _ hg]
  constructor
  · rintro ⟨h1, _, h3⟩; exact ⟨h1, h3⟩
  · rintro ⟨h1, h3⟩; exact ⟨h1, hc, h3⟩

/-- C1, at Cyan of the mock list against the guess `00FFFF` marked
`[correct, correct, absent, absent, correct, correct]`. -/
theorem C1_per_guess_counting_rule_witness :
    (normalizeHex "#00FFFF".toList).length = 6 ∧ "00FFFF".toList.length = 6 ∧
    (satisfiesGuess (normalizeHex "#00FFFF".toList)
        ⟨"00FFFF".toList, [Mark.correct, Mark.correct, Mark.absent, Mark.absent,
          Mark.correct, Mark.correct]⟩ = true ↔
      CountingRule (normalizeHex "#00FFFF".toList) (toUpperCase "00FFFF".toList)
        [Mark.correct, Mark.correct, Mark.absent, Mark.absent, Mark.correct,
          Mark.correct]) :=
  ⟨by decide, by decide,
    (C1_per_guess_counting_rule ⟨"Cyan", "#00FFFF".toList⟩
      ⟨"00FFFF".toList, [Mark.correct, Mark.correct, Mark.absent, Mark.absent,
        Mark.correct, Mark.correct]⟩ (by decide) (by decide)).1⟩

/-- C2. The filter never discards the true target: an entry of the database whose
normalised hex `t` has six digits survives the one-record history made of any
six-digit guess `g` and the standard word-game feedback of `g` against `t`
(digits compared case-insensitively, as normalised by the filter). In the test's
case the standard feedback of `00FFFF` against `0000FF` is
`[correct, correct, absent, absent, correct, correct]` and Blue survives it. -/
theorem C2_target_survives (db : List Color) (c : Color) (g : List Char)
    (hc : (normalizeHex c.hex).length = 6) (hg : g.length = 6) (hmem : c ∈ db) :
    c ∈ filterColorsByWordleHints db
        [⟨g, wordleFeedback (normalizeHex c.hex) (toUpperCase g)⟩] ∧
    wordleFeedback "0000FF".toList "00FFFF".toList
      = [Mark.correct, Mark.correct, Mark.absent, Mark.absent, Mark.correct, Mark.correct] ∧
    (⟨"Blue", "#0000FF".toList⟩ : Color) ∈ filterColorsByWordleHints mockColorList
      [⟨"00FFFF".toList, [Mark.correct, Mark.correct, Mark.absent, Mark.absent,
        Mark.correct, Mark.correct]⟩] := by
  refine ⟨?_, by decide, by decide⟩
  rw [keepColor_mem_filter]
  exact ⟨hmem, hc, satisfiesGuess_wordleFeedback _ _ hc hg⟩

/-- C2, at Magenta of the mock list against the guess `F0F00F`. -/
theorem C2_target_survives_witness :
    (⟨"Magenta", "#FF00FF".toList⟩ : Color) ∈ filterColorsByWordleHints mockColorList
      [⟨"F0F00F".toList,
        wordleFeedback (normalizeHex "#FF00FF".toList) (toUpperCase "F0F00F".toList)⟩] :=
  (C2_target_survives mockColorList ⟨"Magenta", "#FF00FF".toList⟩ "F0F00F".toList
    (by decide) (by decide) (by decide)).1

/-- C3. Filtering composes over the guess history: filtering against `h1 ++ h2`
equals filtering against `h1` and then filtering the result against `h2`, for
histories of any length, the empty ones included. -/
theorem C3_filter_append (db : List Color) (h1 h2 : List Guess) :
    filterColorsByWordleHints db (h1 ++ h2)
      = filterColorsByWordleHints (filterColorsByWordleHints db h1) h2 := by
  cases h1 with
  | nil => simp [filterColorsByWordleHints]
  | cons a h1 =>
    cases h2 with
    | nil => simp [filterColorsByWordleHints]
    | cons b h2 =>
      simp only [filterColorsByWordleHints, List.length_cons, List.length_append]
      rw [if_neg (by omega), if_neg (by omega), if_neg (by omega), List.filter_filter]
      apply List.filter_congr
      intro c _
      rw [keepColor_append, Bool.and_comm]

/-- C4, refuted as stated. With the empty history the database comes back unchanged,
so the entry with hex `12` stays; and with a non-empty history only the length is
tested, so the entry with hex `GGGGGG`, which has no hexadecimal digit, survives the
guess `000000` marked all `absent`. -/
theorem C4_counterexample :
    ((⟨"Short", "12".toList⟩ : Color) ∈
        filterColorsByWordleHints [⟨"Short", "12".toList⟩] [] ∧
      isSixDigitHex "12".toList = false) ∧
    ((⟨"Odd", "GGGGGG".toList⟩ : Color) ∈
        filterColorsByWordleHints [⟨"Odd", "GGGGGG".toList⟩]
          [⟨"000000".toList, allMarks Mark.absent⟩] ∧
      isSixDigitHex "GGGGGG".toList = false) := by
  decide

/-- C7. With the empty guess history the filter returns the database unchanged. -/
theorem C7_empty_history (db : List Color) : filterColorsByWordleHints db [] = db := by
  simp [filterColorsByWordleHints]

/-- C8. For all integers `r`, `g`, `b` in `[0, 255]`, `hexToRgb (rgbToHex r g b)`
succeeds and returns exactly `(r, g, b)`. -/
theorem C8_hex_roundtrip (r g b : Int) (hr : 0 ≤ r ∧ r ≤ 255) (hg : 0 ≤ g ∧ g ≤ 255)
    (hb : 0 ≤ b ∧ b ≤ 255) :
    hexToRgb (rgbToHex r g b) = some ⟨r, g, b⟩ := by
  obtain ⟨r, rfl⟩ := Int.eq_ofNat_of_zero_le hr.1
  obtain ⟨g, rfl⟩ := Int.eq_ofNat_of_zero_le hg.1
  obtain ⟨b, rfl⟩ := Int.eq_ofNat_of_zero_le hb.1
  have h1 : r < 256 := by omega
  have h2 : g < 256 := by omega
  have h3 : b < 256 := by omega
  rw [rgbToHex_channels r g b h1 h2 h3, hexToRgb_channels r g b h1 h2 h3]

/-- C8, at the colour `(18, 171, 255)`. -/
theorem C8_hex_roundtrip_witness :
    hexToRgb (rgbToHex 18 171 255) = some ⟨18, 171, 255⟩ :=
  C8_hex_roundtrip 18 171 255 (by decide) (by decide) (by decide)

/-- C9. For every string, `hexToRgb` returns a colour exactly when the string is an
optional leading `#` followed by exactly six hexadecimal digits (`0-9`, `a-f`,
`A-F`) and nothing else; on every other string it returns `null`. -/
theorem C9_hexToRgb_accepts (s : List Char) :
    (hexToRgb s).isSome = isSixDigitHex s := by
  exact hexToRgb_isSome s

/-- C10, refuted as stated. `rgbToHex` does not clamp: for the channel `256` the
shifted value carries into the leading digit that `slice(1)` drops, giving `#000000`
where the clamped channels give `#FF0000`; and for the channel `-1` the output has
only five digits. -/
theorem C10_counterexample :
    rgbToHex 256 0 0 = "#000000".toList ∧
    rgbToHex (clamp 256) (clamp 0) (clamp 0) = "#FF0000".toList ∧
    rgbToHex 256 0 0 ≠ rgbToHex (clamp 256) (clamp 0) (clamp 0) ∧
    rgbToHex (-1) 0 0 = "#F0000".toList := by
  decide

/-- C10, amended. For integers `r`, `g`, `b` in `[0, 255]`, `rgbToHex r g b` is `#`
followed by exactly six uppercase hexadecimal digits, two per channel, encoding the
channel values; on such channels the clamp is the identity. -/
theorem C10_rgbToHex_in_range (r g b : Int) (hr : 0 ≤ r ∧ r ≤ 255)
    (hg : 0 ≤ g ∧ g ≤ 255) (hb : 0 ≤ b ∧ b ≤ 255) :
    rgbToHex r g b
        = '#' :: (upperHexPair r.toNat ++ upperHexPair g.toNat ++ upperHexPair b.toNat) ∧
    (rgbToHex r g b).length = 7 ∧
    rgbToHex r g b = rgbToHex (clamp r) (clamp g) (clamp b) := by
  have c1 : clamp r = r := by unfold clamp; omega
  have c2 : clamp g = g := by unfold clamp; omega
  have c3 : clamp b = b := by unfold clamp; omega
  rw [c1, c2, c3]
  obtain ⟨r, rfl⟩ := Int.eq_ofNat_of_zero_le hr.1
  obtain ⟨g, rfl⟩ := Int.eq_ofNat_of_zero_le hg.1
  obtain ⟨b, rfl⟩ := Int.eq_ofNat_of_zero_le hb.1
  rw [rgbToHex_channels r g b (by omega) (by omega) (by omega)]
  refine ⟨by simp, by simp [upperHexPair], rfl⟩

/-- C10 amended, at the colour `(255, 0, 10)`, whose code is `#FF000A`. -/
theorem C10_rgbToHex_in_range_witness :
    rgbToHex 255 0 10
      = '#' :: (upperHexPair (255 : Int).toNat ++ upperHexPair (0 : Int).toNat
          ++ upperHexPair (10 : Int).toNat) :=
  (C10_rgbToHex_in_range 255 0 10 (by decide) (by decide) (by decide)).1

end ColordleSolver

namespace ColordleSolver

/-! ## The matcher: errors and the stable sort -/

theorem foldl_sq_add (f : Target → ℚ) (ts : List Target) (acc : ℚ) :
    ts.foldl (fun totalError target => totalError + f target) acc
      = acc + (ts.map f).sum := by
  induction ts generalizing acc with
  | nil => simp
  | cons t ts ih => simp [List.foldl_cons, ih, add_assoc]

theorem calculateError_eq_specError (deltaE : Point → Point → ℚ) (p : Point)
    (cs : List Constraint) :
    calculateError deltaE p (toTargets cs) = specError deltaE p cs := by
  unfold calculateError specError toTargets
  rw [foldl_sq_add (fun target => (deltaE p target.rgb - target.targetDE) ^ 2), zero_add,
    List.map_map]
  congr 1
  apply List.map_congr_left
  intro c _
  simp only [Function.comp]
  ring

theorem specError_nonneg (deltaE : Point → Point → ℚ) (p : Point) (cs : List Constraint) :
    0 ≤ specError deltaE p cs := by
  unfold specError
  apply List.sum_nonneg
  intro x hx
  obtain ⟨c, _, rfl⟩ := List.mem_map.1 hx
  exact sq_nonneg _

theorem scoreColor_color (deltaE : Point → Point → ℚ) (ts : List Target) (c : Color) :
    (scoreColor deltaE ts c).color = c := by
  unfold scoreColor
  cases hexToRgb c.hex <;> rfl

theorem scoreColor_some (deltaE : Point → Point → ℚ) (ts : List Target) (c : Color)
    (o : Rgb) (h : hexToRgb c.hex = some o) :
    scoreColor deltaE ts c = ⟨c, ((calculateError deltaE (rgbArr o) ts : ℚ) : WithTop ℚ)⟩ := by
  unfold scoreColor
  rw [h]

theorem scoreColor_none (deltaE : Point → Point → ℚ) (ts : List Target) (c : Color)
    (h : hexToRgb c.hex = none) : scoreColor deltaE ts c = ⟨c, ⊤⟩ := by
  unfold scoreColor
  rw [h]

theorem scoreColor_error_top_iff (deltaE : Point → Point → ℚ) (ts : List Target) (c : Color) :
    (scoreColor deltaE ts c).error = ⊤ ↔ hexToRgb c.hex = none := by
  cases h : hexToRgb c.hex with
  | none => rw [scoreColor_none _ _ _ h]; simp
  | some o => rw [scoreColor_some _ _ _ o h]; simp

instance errorLe_total : IsTotal Scored (fun a b => a.error ≤ b.error) :=
  ⟨fun a b => le_total a.error b.error⟩

instance errorLe_trans : IsTrans Scored (fun a b => a.error ≤ b.error) :=
  ⟨fun _ _ _ h1 h2 => le_trans h1 h2⟩

theorem sortByError_sorted (l : List Scored) :
    List.Sorted (fun a b => a.error ≤ b.error) (sortByError l) :=
  List.sorted_insertionSort _ l

theorem sortByError_perm (l : List Scored) : (sortByError l).Perm l :=
  List.perm_insertionSort _ l

theorem findBest_some (deltaE : Point → Point → ℚ) (sqrt : ℚ → ℚ) (cs : List Constraint)
    (db : List Color) (limit : Nat) (hcs : cs ≠ []) :
    findBestDatabaseMatches deltaE sqrt (some cs) db limit
      = ((sortByError (db.map (scoreColor deltaE (toTargets cs)))).take limit).map
          (toMatch sqrt cs.length) := by
  have hl : cs.length ≠ 0 := fun h => hcs (List.length_eq_zero.1 h)
  simp only [findBestDatabaseMatches, if_neg hl]

/-- The head of the stable sort is the first entry that no earlier entry beats or
ties and that every later entry does not beat. -/
theorem sortByError_head (pre post : List Scored) (x : Scored)
    (hpre : ∀ y ∈ pre, x.error < y.error) (hpost : ∀ y ∈ post, x.error ≤ y.error) :
    (sortByError (pre ++ x :: post)).head? = some x := by
  induction pre with
  | nil =>
    simp only [List.nil_append, sortByError, List.insertionSort]
    cases hs : List.insertionSort (fun a b => a.error ≤ b.error) post with
    | nil => simp
    | cons y ys =>
      have hy : y ∈ post := by
        rw [← List.mem_insertionSort (fun a b : Scored => a.error ≤ b.error), hs]
        exact List.mem_cons_self _ _
      simp [List.orderedInsert, hpost y hy]
  | cons y pre ih =>
    have ih2 := ih (fun z hz => hpre z (List.mem_cons_of_mem _ hz))
    simp only [sortByError] at ih2
    simp only [List.cons_append, sortByError, List.insertionSort]
    cases hs : List.insertionSort (fun a b => a.error ≤ b.error) (pre ++ x :: post) with
    | nil => rw [hs] at ih2; simp at ih2
    | cons z zs =>
      rw [hs] at ih2
      simp only [List.head?_cons, Option.some.injEq] at ih2
      subst ih2
      have hlt := hpre y (List.mem_cons_self _ _)
      simp [List.orderedInsert, not_le.2 hlt]

end ColordleSolver

namespace ColordleSolver

theorem head?_map_take (l : List Scored) (f : Scored → Match) (limit : Nat) (hl : 1 ≤ limit) :
    ((l.take limit).map f).head? = l.head?.map f := by
  obtain ⟨k, rfl⟩ : ∃ k, limit = k + 1 := ⟨limit - 1, by omega⟩
  cases l <;> simp

/-! ## The claims on the matcher -/

end ColordleSolver

namespace ColordleSolver

theorem mem_sortByError_scored (deltaE : Point → Point → ℚ) (ts : List Target)
    (db : List Color) (x : Scored) (hx : x ∈ sortByError (db.map (scoreColor deltaE ts))) :
    ∃ c ∈ db, x = scoreColor deltaE ts c := by
  rw [(sortByError_perm _).mem_iff] at hx
  obtain ⟨c, hc, rfl⟩ := List.mem_map.1 hx
  exact ⟨c, hc, rfl⟩

theorem toMatch_hex (sqrt : ℚ → ℚ) (n : Nat) (x : Scored) :
    (toMatch sqrt n x).hex = x.color.hex := rfl

/-- C12. For a non-empty constraint list, the results of `findBestDatabaseMatches`
number at most `limit` and are in non-decreasing order of their `error` field. -/
theorem C12_sorted_and_bounded (deltaE : Point → Point → ℚ) (sqrt : ℚ → ℚ)
    (cs : List Constraint) (db : List Color) (limit : Nat) (hcs : cs ≠ []) :
    (findBestDatabaseMatches deltaE sqrt (some cs) db limit).length ≤ limit ∧
    List.Sorted (fun a b : WithTop ℚ => a ≤ b)
      ((findBestDatabaseMatches deltaE sqrt (some cs) db limit).map Match.error) := by
  rw [findBest_some _ _ _ _ _ hcs]
  constructor
  · rw [List.length_map, List.length_take]
    exact min_le_left _ _
  · rw [List.map_map]
    have h := List.Pairwise.sublist (List.take_sublist limit _)
      (sortByError_sorted (db.map (scoreColor deltaE (toTargets cs))))
    exact List.pairwise_map.2 h

/-- C12, at the mock list with two constraints and limit `3`. -/
theorem C12_sorted_and_bounded_witness :
    (findBestDatabaseMatches sampleDeltaE sampleSqrt
        (some [⟨(0, 255, 255), 48⟩, ⟨(255, 0, 255), 59⟩]) mockColorList 3).length ≤ 3 ∧
    List.Sorted (fun a b : WithTop ℚ => a ≤ b)
      ((findBestDatabaseMatches sampleDeltaE sampleSqrt
        (some [⟨(0, 255, 255), 48⟩, ⟨(255, 0, 255), 59⟩]) mockColorList 3).map Match.error) :=
  C12_sorted_and_bounded sampleDeltaE sampleSqrt _ mockColorList 3 (List.cons_ne_nil _ _)

/-- C13. For a non-empty constraint list, a returned entry whose hex fails
`hexToRgb` has error `+∞`; no such entry precedes a parseable one in the result;
and one appears in the result only if the database has fewer than `limit`
parseable entries. -/
theorem C13_unparseable_last (deltaE : Point → Point → ℚ) (sqrt : ℚ → ℚ)
    (cs : List Constraint) (db : List Color) (limit : Nat) (hcs : cs ≠ []) :
    (∀ m ∈ findBestDatabaseMatches deltaE sqrt (some cs) db limit,
      hexToRgb m.hex = none → m.error = ⊤) ∧
    List.Pairwise (fun a b : Match => hexToRgb a.hex = none → hexToRgb b.hex = none)
      (findBestDatabaseMatches deltaE sqrt (some cs) db limit) ∧
    ((∃ m ∈ findBestDatabaseMatches deltaE sqrt (some cs) db limit, hexToRgb m.hex = none) →
      (db.filter fun c => (hexToRgb c.hex).isSome).length < limit) := by
  rw [findBest_some _ _ _ _ _ hcs]
  have hkey : ∀ x ∈ sortByError (db.map (scoreColor deltaE (toTargets cs))),
      (x.error = ⊤ ↔ hexToRgb x.color.hex = none) := by
    intro x hx
    obtain ⟨c, _, rfl⟩ := mem_sortByError_scored _ _ _ _ hx
    rw [scoreColor_error_top_iff, scoreColor_color]
  refine ⟨?_, ?_, ?_⟩
  · intro m hm hnone
    obtain ⟨x, hx, rfl⟩ := List.mem_map.1 hm
    exact (hkey x (List.mem_of_mem_take hx)).2 hnone
  · rw [List.pairwise_map]
    apply List.Pairwise.sublist (List.take_sublist limit _)
    apply List.Pairwise.imp_of_mem _ (sortByError_sorted (db.map (scoreColor deltaE (toTargets cs))))
    intro a b ha hb hab hnone
    have hta := (hkey a ha).2 hnone
    rw [hta] at hab
    exact (hkey b hb).1 (top_le_iff.1 hab)
  · rintro ⟨m, hm, hnone⟩
    obtain ⟨x, hx, rfl⟩ := List.mem_map.1 hm
    have hxtop : x.error = ⊤ := (hkey x (List.mem_of_mem_take hx)).2 hnone
    have hcount : (db.filter fun c => (hexToRgb c.hex).isSome).length
        = List.countP (fun y : Scored => decide (y.error ≠ ⊤))
            (sortByError (db.map (scoreColor deltaE (toTargets cs)))) := by
      rw [(sortByError_perm _).countP_eq, List.countP_map, ← List.countP_eq_length_filter]
      apply List.countP_congr
      intro c _
      simp only [Function.comp, decide_eq_true_eq, ne_eq, scoreColor_error_top_iff]
      cases hexToRgb c.hex <;> simp
    rw [hcount]
    conv_lhs => rw [← List.take_append_drop limit
      (sortByError (db.map (scoreColor deltaE (toTargets cs))))]
    rw [List.countP_append]
    have hdrop : List.countP (fun y : Scored => decide (y.error ≠ ⊤))
        (List.drop limit (sortByError (db.map (scoreColor deltaE (toTargets cs))))) = 0 := by
      rw [List.countP_eq_zero]
      intro y hy
      have hrel := List.Sorted.rel_of_mem_take_of_mem_drop
        (sortByError_sorted (db.map (scoreColor deltaE (toTargets cs)))) hx hy
      rw [hxtop] at hrel
      simp [top_le_iff.1 hrel]
    have htake : List.countP (fun y : Scored => decide (y.error ≠ ⊤))
        (List.take limit (sortByError (db.map (scoreColor deltaE (toTargets cs)))))
        < limit := by
      have hlen := List.length_eq_countP_add_countP (fun y : Scored => decide (y.error ≠ ⊤))
        (List.take limit (sortByError (db.map (scoreColor deltaE (toTargets cs)))))
      have hpos : 0 < List.countP (fun a : Scored => decide ¬(decide (a.error ≠ ⊤) = true))
          (List.take limit (sortByError (db.map (scoreColor deltaE (toTargets cs))))) := by
        rw [List.countP_pos_iff]
        exact ⟨x, hx, by simp [hxtop]⟩
      have hle : (List.take limit
          (sortByError (db.map (scoreColor deltaE (toTargets cs))))).length ≤ limit := by
        rw [List.length_take]; exact min_le_left _ _
      omega
    omega

/-- C13, at a database with one unparseable entry ahead of the mock list. -/
theorem C13_unparseable_last_witness :
    List.Pairwise (fun a b : Match => hexToRgb a.hex = none → hexToRgb b.hex = none)
      (findBestDatabaseMatches sampleDeltaE sampleSqrt (some [⟨(0, 255, 255), 48⟩])
        (⟨"Broken", "#12345".toList⟩ :: mockColorList) 20) :=
  (C13_unparseable_last sampleDeltaE sampleSqrt _ _ 20 (List.cons_ne_nil _ _)).2.1

end ColordleSolver

namespace ColordleSolver

/-- C14. For a non-empty list of `M` constraints and every returned match: if its
hex parses to the colour `o`, its `error` field is the sum over the constraints of
`((100 - DeltaE(o, guess)) - score)²` and its `score` field is
`max(0, 100 - sqrt(error / M))`; and in every case the `score` lies in `[0, 100]`
(of `sqrt` only `0 ≤ sqrt x` is used). -/
theorem C14_error_and_confidence (deltaE : Point → Point → ℚ) (sqrt : ℚ → ℚ)
    (cs : List Constraint) (db : List Color) (limit : Nat) (hcs : cs ≠ [])
    (hsqrt : ∀ x, 0 ≤ sqrt x) (m : Match)
    (hm : m ∈ findBestDatabaseMatches deltaE sqrt (some cs) db limit) :
    (∀ o, hexToRgb m.hex = some o →
      m.error = ((specError deltaE (rgbArr o) cs : ℚ) : WithTop ℚ) ∧
      m.score = max 0 (100 - sqrt (specError deltaE (rgbArr o) cs / (cs.length : ℚ)))) ∧
    0 ≤ m.score ∧ m.score ≤ 100 := by
  rw [findBest_some _ _ _ _ _ hcs] at hm
  obtain ⟨x, hx, rfl⟩ := List.mem_map.1 hm
  obtain ⟨c, _, rfl⟩ := mem_sortByError_scored _ _ _ _ (List.mem_of_mem_take hx)
  cases h : hexToRgb c.hex with
  | none =>
    rw [scoreColor_none _ _ _ h]
    refine ⟨fun o ho => ?_, ?_, ?_⟩
    · rw [toMatch_hex] at ho
      rw [h] at ho
      exact absurd ho (by simp)
    · exact le_refl _
    · show (0 : ℚ) ≤ 100
      norm_num
  | some o2 =>
    rw [scoreColor_some _ _ _ o2 h, calculateError_eq_specError]
    refine ⟨fun o ho => ?_, ?_, ?_⟩
    · rw [toMatch_hex] at ho
      rw [h] at ho
      obtain rfl : o2 = o := Option.some.inj ho
      exact ⟨rfl, rfl⟩
    · exact le_max_left _ _
    · apply max_le (by norm_num)
      have := hsqrt (specError deltaE (rgbArr o2) cs / (cs.length : ℚ))
      linarith

/-- C14, at the one-entry database `[Blue]` with one constraint. -/
theorem C14_error_and_confidence_witness :
    0 ≤ (toMatch sampleSqrt 1
        (scoreColor sampleDeltaE (toTargets [⟨(0, 255, 255), 48⟩])
          ⟨"Blue", "#0000FF".toList⟩)).score ∧
    (toMatch sampleSqrt 1
        (scoreColor sampleDeltaE (toTargets [⟨(0, 255, 255), 48⟩])
          ⟨"Blue", "#0000FF".toList⟩)).score ≤ 100 :=
  (C14_error_and_confidence sampleDeltaE sampleSqrt [⟨(0, 255, 255), 48⟩]
    [⟨"Blue", "#0000FF".toList⟩] 1 (List.cons_ne_nil _ _) (fun _ => Nat.cast_nonneg _)
    (toMatch sampleSqrt 1
      (scoreColor sampleDeltaE (toTargets [⟨(0, 255, 255), 48⟩]) ⟨"Blue", "#0000FF".toList⟩))
    (List.mem_singleton.2 rfl)).2

/-- C15. With an empty or a missing constraint list, `findBestDatabaseMatches`
returns the empty list, for every database and every limit. -/
theorem C15_empty_constraints (deltaE : Point → Point → ℚ) (sqrt : ℚ → ℚ)
    (db : List Color) (limit : Nat) :
    findBestDatabaseMatches deltaE sqrt (some []) db limit = [] ∧
    findBestDatabaseMatches deltaE sqrt none db limit = [] :=
  ⟨rfl, rfl⟩

/-- C16. With an empty or a missing constraint list, `solveRGBIncremental` returns
exactly `(128, 128, 128)`, without entering any loop. -/
theorem C16_empty_midpoint (deltaE : Point → Point → ℚ) (fuel : Nat) :
    solveRGBIncremental deltaE fuel (some []) = some ⟨128, 128, 128⟩ ∧
    solveRGBIncremental deltaE fuel none = some ⟨128, 128, 128⟩ :=
  ⟨rfl, rfl⟩

/-- C19. The digit filter over-approximates: the candidate `A00000` survives the
guess `A11111` marked `[present, absent, absent, absent, absent, absent]`, although
the standard feedback of that guess against that candidate is
`[correct, absent, absent, absent, absent, absent]`; the `present` mark is accepted
at a position where the candidate has the guessed digit. -/
theorem C19_over_approximation :
    (⟨"Candidate", "A00000".toList⟩ : Color) ∈
      filterColorsByWordleHints [⟨"Candidate", "A00000".toList⟩]
        [⟨"A11111".toList, [Mark.present, Mark.absent, Mark.absent, Mark.absent,
          Mark.absent, Mark.absent]⟩] ∧
    wordleFeedback (normalizeHex "A00000".toList) (toUpperCase "A11111".toList)
      = [Mark.correct, Mark.absent, Mark.absent, Mark.absent, Mark.absent, Mark.absent] ∧
    wordleFeedback (normalizeHex "A00000".toList) (toUpperCase "A11111".toList)
      ≠ [Mark.present, Mark.absent, Mark.absent, Mark.absent, Mark.absent, Mark.absent] ∧
    (normalizeHex "A00000".toList)[0]? = (toUpperCase "A11111".toList)[0]? := by
  decide

end ColordleSolver

namespace ColordleSolver

/-! ## The local search: the reachable points are finitely many -/

theorem channelLattice_finite (x0 : ℚ) : (channelLattice x0).Finite := by
  have h1 : ({x0} : Set ℚ).Finite := Set.finite_singleton x0
  have h2 : ((fun j : ℤ => x0 + (j : ℚ) / 10) ''
      Set.Icc ⌈-(10 * x0)⌉ ⌊2550 - 10 * x0⌋).Finite := (Set.finite_Icc _ _).image _
  have h3 : ((fun j : ℤ => (j : ℚ) / 10) '' Set.Icc 0 2550).Finite :=
    (Set.finite_Icc _ _).image _
  apply ((h1.union h2).union h3).subset
  intro y hy
  rcases hy with rfl | ⟨j, hj, h0, h255⟩
  · exact Or.inl (Or.inl rfl)
  · rcases hj with rfl | rfl
    · refine Or.inl (Or.inr ⟨j, ⟨?_, ?_⟩, rfl⟩)
      · rw [Int.ceil_le]; linarith
      · rw [Int.le_floor]; linarith
    · refine Or.inr ⟨j, ⟨?_, ?_⟩, rfl⟩
      · have : (0 : ℚ) ≤ (j : ℚ) := by linarith
        exact_mod_cast this
      · have : (j : ℚ) ≤ 2550 := by linarith
        exact_mod_cast this

theorem pointLattice_finite (p0 : Point) : (pointLattice p0).Finite := by
  have h := (channelLattice_finite p0.1).prod
    ((channelLattice_finite p0.2.1).prod (channelLattice_finite p0.2.2))
  apply h.subset
  intro p hp
  exact ⟨hp.1, hp.2.1, hp.2.2⟩

theorem clampChannel_range (x : ℚ) : 0 ≤ clampChannel x ∧ clampChannel x ≤ 255 := by
  unfold clampChannel
  constructor
  · exact le_max_left _ _
  · exact max_le (by norm_num) (min_le_left _ _)

theorem clampChannel_cases (x : ℚ) :
    clampChannel x = 0 ∨ clampChannel x = 255 ∨ clampChannel x = x := by
  unfold clampChannel
  rcases le_total 255 x with h | h
  · rw [min_eq_left h]
    right; left
    exact max_eq_right (by norm_num)
  · rw [min_eq_right h]
    rcases le_total 0 x with h0 | h0
    · right; right; exact max_eq_right h0
    · left; exact max_eq_left h0

theorem clampChannel_mem (x0 y : ℚ) (m : ℤ) (hy : y ∈ channelLattice x0) :
    clampChannel (y + (m : ℚ) / 10) ∈ channelLattice x0 := by
  have hr := clampChannel_range (y + (m : ℚ) / 10)
  rcases clampChannel_cases (y + (m : ℚ) / 10) with h | h | h
  · rw [h]
    exact Or.inr ⟨0, Or.inr (by norm_num), le_refl _, by norm_num⟩
  · rw [h]
    exact Or.inr ⟨2550, Or.inr (by norm_num), by norm_num, le_refl _⟩
  · rw [h] at hr ⊢
    rcases hy with rfl | ⟨j, hj, _, _⟩
    · exact Or.inr ⟨m, Or.inl rfl, hr.1, hr.2⟩
    · rcases hj with rfl | rfl
      · exact Or.inr ⟨j + m, Or.inl (by push_cast; ring), hr.1, hr.2⟩
      · exact Or.inr ⟨j + m, Or.inr (by push_cast; ring), hr.1, hr.2⟩

theorem steps_tenths (step : ℚ) (h : step ∈ steps) : ∃ m : ℤ, step = (m : ℚ) / 10 := by
  simp only [steps, List.mem_cons, List.mem_nil_iff, or_false] at h
  rcases h with rfl | rfl | rfl | rfl | rfl | rfl | rfl | rfl | rfl
  · exact ⟨640, by norm_num⟩
  · exact ⟨320, by norm_num⟩
  · exact ⟨160, by norm_num⟩
  · exact ⟨80, by norm_num⟩
  · exact ⟨40, by norm_num⟩
  · exact ⟨20, by norm_num⟩
  · exact ⟨10, by norm_num⟩
  · exact ⟨5, by norm_num⟩
  · exact ⟨1, by norm_num⟩

theorem clampChannel_step_mem (x0 y c step : ℚ) (hs : step ∈ steps)
    (hc : c = step ∨ c = -step ∨ c = 0) (hy : y ∈ channelLattice x0) :
    clampChannel (y + c) ∈ channelLattice x0 := by
  obtain ⟨m, hm⟩ := steps_tenths step hs
  rcases hc with h | h | h
  · rw [h, hm]
    exact clampChannel_mem _ _ m hy
  · have hn : -step = ((-m : ℤ) : ℚ) / 10 := by rw [hm]; push_cast; ring
    rw [h, hn]
    exact clampChannel_mem _ _ (-m) hy
  · have hz : (0 : ℚ) = ((0 : ℤ) : ℚ) / 10 := by norm_num
    rw [h, hz]
    exact clampChannel_mem _ _ 0 hy

theorem nextRGB_mem (p0 p d : Point) (step : ℚ) (hs : step ∈ steps)
    (hd : d ∈ directions step) (hp : p ∈ pointLattice p0) :
    nextRGB p d ∈ pointLattice p0 := by
  have hc : (d.1 = step ∨ d.1 = -step ∨ d.1 = 0) ∧ (d.2.1 = step ∨ d.2.1 = -step ∨ d.2.1 = 0) ∧
      (d.2.2 = step ∨ d.2.2 = -step ∨ d.2.2 = 0) := by
    simp only [directions, List.mem_cons, List.mem_nil_iff, or_false] at hd
    rcases hd with h | h | h | h | h | h <;> rw [h] <;> simp
  exact ⟨clampChannel_step_mem _ _ _ step hs hc.1 hp.1,
    clampChannel_step_mem _ _ _ step hs hc.2.1 hp.2.1,
    clampChannel_step_mem _ _ _ step hs hc.2.2 hp.2.2⟩

theorem nextRGB_inRange (p d : Point) : InRange (nextRGB p d) :=
  ⟨clampChannel_range _, clampChannel_range _, clampChannel_range _⟩

theorem start_mem_pointLattice (p0 : Point) : p0 ∈ pointLattice p0 :=
  ⟨Or.inl rfl, Or.inl rfl, Or.inl rfl⟩

end ColordleSolver

namespace ColordleSolver

/-! ## The local search: what the loops keep -/

theorem foldl_tryDirection_spec (err : Point → ℚ) (Q : Point → Prop) (ds : List Point)
    (hQ : ∀ p, Q p → ∀ d ∈ ds, Q (nextRGB p d)) (s : Search × Bool)
    (hq : Q s.1.bestRGB) (he : s.1.minError = err s.1.bestRGB) :
    Q (ds.foldl (tryDirection err) s).1.bestRGB ∧
    (ds.foldl (tryDirection err) s).1.minError = err (ds.foldl (tryDirection err) s).1.bestRGB ∧
    (ds.foldl (tryDirection err) s).1.minError ≤ s.1.minError ∧
    ((ds.foldl (tryDirection err) s).2 = true →
      s.2 = true ∨ (ds.foldl (tryDirection err) s).1.minError < s.1.minError) ∧
    ((ds.foldl (tryDirection err) s).2 = false → ds.foldl (tryDirection err) s = s) := by
  induction ds generalizing s with
  | nil => exact ⟨hq, he, le_refl _, fun h => Or.inl h, fun _ => rfl⟩
  | cons d ds ih =>
    simp only [List.foldl_cons]
    have hQ2 : ∀ p, Q p → ∀ d2 ∈ ds, Q (nextRGB p d2) :=
      fun p hp d2 hd2 => hQ p hp d2 (List.mem_cons_of_mem _ hd2)
    by_cases hlt : err (nextRGB s.1.bestRGB d) < s.1.minError
    · have hs1 : tryDirection err s d = (⟨nextRGB s.1.bestRGB d, err (nextRGB s.1.bestRGB d)⟩, true) := by
        simp only [tryDirection, if_pos hlt]
      rw [hs1]
      obtain ⟨h1, h2, h3, _, h5⟩ := ih hQ2
        (⟨nextRGB s.1.bestRGB d, err (nextRGB s.1.bestRGB d)⟩, true)
        (hQ _ hq d (List.mem_cons_self _ _)) rfl
      refine ⟨h1, h2, le_trans h3 (le_of_lt hlt), fun _ => Or.inr (lt_of_le_of_lt h3 hlt), ?_⟩
      intro hf
      have := h5 hf
      rw [this] at hf
      exact absurd hf (by simp)
    · have hs1 : tryDirection err s d = s := by
        simp only [tryDirection, if_neg hlt]
      rw [hs1]
      exact ih hQ2 s hq he

theorem sweep_spec (err : Point → ℚ) (Q : Point → Prop) (step : ℚ)
    (hQ : ∀ p, Q p → ∀ d ∈ directions step, Q (nextRGB p d)) (st : Search)
    (hq : Q st.bestRGB) (he : st.minError = err st.bestRGB) :
    Q (sweep err step st).1.bestRGB ∧
    (sweep err step st).1.minError = err (sweep err step st).1.bestRGB ∧
    (sweep err step st).1.minError ≤ st.minError ∧
    ((sweep err step st).2 = true → (sweep err step st).1.minError < st.minError) ∧
    ((sweep err step st).2 = false → (sweep err step st).1 = st) := by
  obtain ⟨h1, h2, h3, h4, h5⟩ :=
    foldl_tryDirection_spec err Q (directions step) hQ (st, false) hq he
  refine ⟨h1, h2, h3, fun h => ?_, fun h => ?_⟩
  · rcases h4 h with h | h
    · exact absurd h (by simp)
    · exact h
  · have := h5 h
    unfold sweep
    rw [this]

theorem climb_succ (err : Point → ℚ) (step : ℚ) (fuel : Nat) (st : Search) :
    climb err step (fuel + 1) st
      = if (sweep err step st).2 = true then climb err step fuel (sweep err step st).1
        else some (sweep err step st).1 := by
  rw [climb]
  rcases h : sweep err step st with ⟨st2, b⟩
  cases b <;> simp

theorem climb_spec (err : Point → ℚ) (Q : Point → Prop) (step : ℚ)
    (hQ : ∀ p, Q p → ∀ d ∈ directions step, Q (nextRGB p d)) (fuel : Nat) (st r : Search)
    (hq : Q st.bestRGB) (he : st.minError = err st.bestRGB)
    (h : climb err step fuel st = some r) :
    Q r.bestRGB ∧ r.minError = err r.bestRGB ∧ r.minError ≤ st.minError := by
  induction fuel generalizing st with
  | zero => simp [climb] at h
  | succ fuel ih =>
    rw [climb_succ] at h
    obtain ⟨h1, h2, h3, _, _⟩ := sweep_spec err Q step hQ st hq he
    by_cases hb : (sweep err step st).2 = true
    · rw [if_pos hb] at h
      obtain ⟨g1, g2, g3⟩ := ih _ h1 h2 h
      exact ⟨g1, g2, le_trans g3 h3⟩
    · rw [if_neg hb] at h
      obtain rfl := Option.some.inj h
      exact ⟨h1, h2, h3⟩

theorem climb_mono (err : Point → ℚ) (step : ℚ) (n : Nat) (st r : Search)
    (h : climb err step n st = some r) (k : Nat) : climb err step (n + k) st = some r := by
  induction n generalizing st with
  | zero => simp [climb] at h
  | succ n ih =>
    rw [climb_succ] at h
    rw [show n + 1 + k = (n + k) + 1 by omega, climb_succ]
    by_cases hb : (sweep err step st).2 = true
    · rw [if_pos hb] at h ⊢
      exact ih _ h
    · rw [if_neg hb] at h ⊢
      exact h

theorem climb_terminates (err : Point → ℚ) (p0 : Point) (step : ℚ) (hs : step ∈ steps)
    (n : Nat) (st : Search) (hq : st.bestRGB ∈ pointLattice p0)
    (he : st.minError = err st.bestRGB)
    (hn : Set.ncard {q | q ∈ pointLattice p0 ∧ err q < st.minError} ≤ n) :
    ∃ r, climb err step (n + 1) st = some r := by
  induction n generalizing st with
  | zero =>
    rw [climb_succ]
    obtain ⟨h1, h2, _, h4, _⟩ := sweep_spec err (fun p => p ∈ pointLattice p0) step
      (fun p hp d hd => nextRGB_mem p0 p d step hs hd hp) st hq he
    by_cases hb : (sweep err step st).2 = true
    · exfalso
      have hfin : {q | q ∈ pointLattice p0 ∧ err q < st.minError}.Finite :=
        (pointLattice_finite p0).subset fun q hq => hq.1
      have hmem : (sweep err step st).1.bestRGB ∈
          {q | q ∈ pointLattice p0 ∧ err q < st.minError} := ⟨h1, by rw [← h2]; exact h4 hb⟩
      have hpos := (Set.ncard_pos hfin).2 ⟨_, hmem⟩
      omega
    · rw [if_neg hb]
      exact ⟨_, rfl⟩
  | succ n ih =>
    rw [climb_succ]
    obtain ⟨h1, h2, _, h4, _⟩ := sweep_spec err (fun p => p ∈ pointLattice p0) step
      (fun p hp d hd => nextRGB_mem p0 p d step hs hd hp) st hq he
    by_cases hb : (sweep err step st).2 = true
    · rw [if_pos hb]
      apply ih _ h1 h2
      have hfin : {q | q ∈ pointLattice p0 ∧ err q < st.minError}.Finite :=
        (pointLattice_finite p0).subset fun q hq => hq.1
      have hlt := h4 hb
      have hss : {q | q ∈ pointLattice p0 ∧ err q < (sweep err step st).1.minError} ⊂
          {q | q ∈ pointLattice p0 ∧ err q < st.minError} := by
        have hsub : {q | q ∈ pointLattice p0 ∧ err q < (sweep err step st).1.minError} ⊆
            {q | q ∈ pointLattice p0 ∧ err q < st.minError} :=
          fun q hq => ⟨hq.1, lt_trans hq.2 hlt⟩
        rw [Set.ssubset_iff_of_subset hsub]
        refine ⟨(sweep err step st).1.bestRGB, ⟨h1, by rw [← h2]; exact hlt⟩, ?_⟩
        intro hc
        have := hc.2
        rw [← h2] at this
        exact lt_irrefl _ this
      have := Set.ncard_lt_ncard hss hfin
      omega
    · rw [if_neg hb]
      exact ⟨_, rfl⟩

theorem climb_total (err : Point → ℚ) (p0 : Point) (step : ℚ) (hs : step ∈ steps)
    (st : Search) (hq : st.bestRGB ∈ pointLattice p0) (he : st.minError = err st.bestRGB) :
    ∃ N r, ∀ fuel, N ≤ fuel → climb err step fuel st = some r := by
  obtain ⟨r, hr⟩ := climb_terminates err p0 step hs _ st hq he (le_refl _)
  refine ⟨Set.ncard {q | q ∈ pointLattice p0 ∧ err q < st.minError} + 1, r,
    fun fuel hf => ?_⟩
  obtain ⟨k, rfl⟩ := Nat.exists_eq_add_of_le hf
  exact climb_mono err step _ st r hr k

end ColordleSolver

namespace ColordleSolver

theorem refine_spec (err : Point → ℚ) (Q : Point → Prop) (fuel : Nat) (l : List ℚ)
    (hQ : ∀ step ∈ l, ∀ p, Q p → ∀ d ∈ directions step, Q (nextRGB p d)) (st r : Search)
    (hq : Q st.bestRGB) (he : st.minError = err st.bestRGB)
    (h : refine err fuel l st = some r) :
    Q r.bestRGB ∧ r.minError = err r.bestRGB ∧ r.minError ≤ st.minError := by
  induction l generalizing st with
  | nil =>
    simp only [refine, Option.some.injEq] at h
    subst h
    exact ⟨hq, he, le_refl _⟩
  | cons step rest ih =>
    simp only [refine] at h
    cases hc : climb err step fuel st with
    | none => rw [hc] at h; simp at h
    | some st2 =>
      rw [hc] at h
      obtain ⟨h1, h2, h3⟩ := climb_spec err Q step (hQ step (List.mem_cons_self _ _)) fuel st st2
        hq he hc
      obtain ⟨g1, g2, g3⟩ := ih (fun s hs => hQ s (List.mem_cons_of_mem _ hs)) st2 h1 h2 h
      exact ⟨g1, g2, le_trans g3 h3⟩

theorem refine_total (err : Point → ℚ) (p0 : Point) (l : List ℚ)
    (hl : ∀ step ∈ l, step ∈ steps) (st : Search) (hq : st.bestRGB ∈ pointLattice p0)
    (he : st.minError = err st.bestRGB) :
    ∃ N r, ∀ fuel, N ≤ fuel → refine err fuel l st = some r := by
  induction l generalizing st with
  | nil => exact ⟨0, st, fun _ _ => rfl⟩
  | cons step rest ih =>
    have hs := hl step (List.mem_cons_self _ _)
    obtain ⟨N1, r1, h1⟩ := climb_total err p0 step hs st hq he
    obtain ⟨g1, g2, _⟩ := climb_spec err (fun p => p ∈ pointLattice p0) step
      (fun p hp d hd => nextRGB_mem p0 p d step hs hd hp) N1 st r1 hq he (h1 N1 (le_refl _))
    obtain ⟨N2, r2, h2⟩ := ih (fun s hs2 => hl s (List.mem_cons_of_mem _ hs2)) r1 g1 g2
    refine ⟨max N1 N2, r2, fun fuel hf => ?_⟩
    simp only [refine]
    rw [h1 fuel (le_trans (le_max_left _ _) hf)]
    exact h2 fuel (le_trans (le_max_right _ _) hf)

theorem localSearch_spec (err : Point → ℚ) (Q : Point → Prop) (fuel : Nat)
    (hQ : ∀ p d, Q p → Q (nextRGB p d)) (sp : Point) (r : Search) (hq : Q sp)
    (h : localSearch err fuel sp = some r) :
    Q r.bestRGB ∧ r.minError = err r.bestRGB ∧ r.minError ≤ err sp :=
  refine_spec err Q fuel steps (fun _ _ p hp d _ => hQ p d hp) ⟨sp, err sp⟩ r hq rfl h

theorem localSearch_total (err : Point → ℚ) (sp : Point) :
    ∃ N r, ∀ fuel, N ≤ fuel → localSearch err fuel sp = some r :=
  refine_total err sp steps (fun _ h => h) ⟨sp, err sp⟩ (start_mem_pointLattice sp) rfl

theorem searchAll_eq (err : Point → ℚ) (fuel : Nat) (sps : List Point) (finals : List Search)
    (o : Overall)
    (h : List.Forall₂ (fun sp st => localSearch err fuel sp = some st) sps finals) :
    searchAll err fuel sps o = some (finals.foldl pickBest o) := by
  induction h generalizing o with
  | nil => rfl
  | cons hab _ ih =>
    simp only [searchAll, hab, List.foldl_cons, pickBest]
    split_ifs
    · exact ih _
    · exact ih _

theorem searchAll_total (err : Point → ℚ) (sps : List Point) :
    ∃ N finals, ∀ fuel, N ≤ fuel →
      List.Forall₂ (fun sp st => localSearch err fuel sp = some st) sps finals := by
  induction sps with
  | nil => exact ⟨0, [], fun _ _ => List.Forall₂.nil⟩
  | cons sp sps ih =>
    obtain ⟨N1, r, h1⟩ := localSearch_total err sp
    obtain ⟨N2, finals, h2⟩ := ih
    exact ⟨max N1 N2, r :: finals, fun fuel hf =>
      List.Forall₂.cons (h1 fuel (le_trans (le_max_left _ _) hf))
        (h2 fuel (le_trans (le_max_right _ _) hf))⟩

theorem forall₂_left {α β : Type} (R : α → β → Prop) (l1 : List α) (l2 : List β)
    (h : List.Forall₂ R l1 l2) : ∀ a ∈ l1, ∃ b ∈ l2, R a b := by
  induction h with
  | nil => intro a ha; simp at ha
  | cons hab _ ih =>
    intro a ha
    rcases List.mem_cons.1 ha with rfl | ha
    · exact ⟨_, List.mem_cons_self _ _, hab⟩
    · obtain ⟨b, hb, hr⟩ := ih a ha
      exact ⟨b, List.mem_cons_of_mem _ hb, hr⟩

theorem forall₂_right {α β : Type} (R : α → β → Prop) (l1 : List α) (l2 : List β)
    (h : List.Forall₂ R l1 l2) : ∀ b ∈ l2, ∃ a ∈ l1, R a b := by
  induction h with
  | nil => intro b hb; simp at hb
  | cons hab _ ih =>
    intro b hb
    rcases List.mem_cons.1 hb with rfl | hb
    · exact ⟨_, List.mem_cons_self _ _, hab⟩
    · obtain ⟨a, ha, hr⟩ := ih b hb
      exact ⟨a, List.mem_cons_of_mem _ ha, hr⟩

theorem foldl_pickBest_spec (finals : List Search) (o : Overall) :
    (finals.foldl pickBest o).overallMinError ≤ o.overallMinError ∧
    (∀ st ∈ finals, (finals.foldl pickBest o).overallMinError ≤ (st.minError : WithTop ℚ)) ∧
    (finals.foldl pickBest o = o ∨
      ∃ st ∈ finals, finals.foldl pickBest o = ⟨st.bestRGB, (st.minError : WithTop ℚ)⟩) := by
  induction finals generalizing o with
  | nil => exact ⟨le_refl _, fun st hst => by simp at hst, Or.inl rfl⟩
  | cons a finals ih =>
    simp only [List.foldl_cons]
    obtain ⟨h1, h2, h3⟩ := ih (pickBest o a)
    have hp1 : (pickBest o a).overallMinError ≤ o.overallMinError := by
      unfold pickBest
      split_ifs with h
      · exact le_of_lt h
      · exact le_refl _
    have hp2 : (pickBest o a).overallMinError ≤ (a.minError : WithTop ℚ) := by
      unfold pickBest
      split_ifs with h
      · exact le_refl _
      · exact not_lt.1 h
    refine ⟨le_trans h1 hp1, ?_, ?_⟩
    · intro st hst
      rcases List.mem_cons.1 hst with rfl | hst
      · exact le_trans h1 hp2
      · exact h2 st hst
    · rcases h3 with h3 | ⟨st, hst, h3⟩
      · rw [h3]
        unfold pickBest
        split_ifs with h
        · exact Or.inr ⟨a, List.mem_cons_self _ _, rfl⟩
        · exact Or.inl rfl
      · exact Or.inr ⟨st, List.mem_cons_of_mem _ hst, h3⟩

theorem startingPoints_eq (cs : List Constraint) (hcs : cs ≠ []) :
    startingPoints cs = [(128, 128, 128), (64, 64, 64), (192, 192, 192), averagePoint cs] := by
  have hl : cs.length > 0 := List.length_pos.2 hcs
  simp [startingPoints, hl]

theorem solve_some (deltaE : Point → Point → ℚ) (fuel : Nat) (cs : List Constraint)
    (hcs : cs ≠ []) :
    solveRGBIncremental deltaE fuel (some cs)
      = (searchAll (fun rgb => calculateError deltaE rgb (toTargets cs)) fuel
          (startingPoints cs) ⟨(128, 128, 128), ⊤⟩).map fun o => roundPoint o.overallBestRGB := by
  have hl : cs.length ≠ 0 := fun h => hcs (List.length_eq_zero.1 h)
  simp only [solveRGBIncremental, if_neg hl]
  cases searchAll (fun rgb => calculateError deltaE rgb (toTargets cs)) fuel
    (startingPoints cs) ⟨(128, 128, 128), ⊤⟩ <;> rfl

theorem mathRound_near (x : ℚ) : |((mathRound x : ℤ) : ℚ) - x| ≤ 1 / 2 := by
  unfold mathRound
  have h1 := Int.floor_le (x + 1 / 2)
  have h2 := Int.lt_floor_add_one (x + 1 / 2)
  rw [abs_le]
  constructor <;> linarith

end ColordleSolver

namespace ColordleSolver

/-- With enough fuel every search ends, and the solver rounds the final point of a
search whose final error is the least among the searches. -/
theorem solve_total (deltaE : Point → Point → ℚ) (cs : List Constraint) (hcs : cs ≠ []) :
    ∃ (N : Nat) (finals : List Search) (best : Search),
      best ∈ finals ∧
      (∀ fuel, N ≤ fuel →
        List.Forall₂
          (fun sp st =>
            localSearch (fun rgb => calculateError deltaE rgb (toTargets cs)) fuel sp = some st)
          (startingPoints cs) finals ∧
        solveRGBIncremental deltaE fuel (some cs) = some (roundPoint best.bestRGB)) ∧
      ∀ st ∈ finals, best.minError ≤ st.minError := by
  obtain ⟨N, finals, hF⟩ :=
    searchAll_total (fun rgb => calculateError deltaE rgb (toTargets cs)) (startingPoints cs)
  obtain ⟨h1, h2, h3⟩ := foldl_pickBest_spec finals ⟨(128, 128, 128), ⊤⟩
  have hne : ∃ st, st ∈ finals := by
    have hmem : ((128, 128, 128) : Point) ∈ startingPoints cs := by
      rw [startingPoints_eq cs hcs]; exact List.mem_cons_self _ _
    obtain ⟨st, hst, _⟩ := forall₂_left _ _ _ (hF N (le_refl _)) _ hmem
    exact ⟨st, hst⟩
  rcases h3 with h3 | ⟨best, hbest, h3⟩
  · exfalso
    obtain ⟨st, hst⟩ := hne
    have := h2 st hst
    rw [h3] at this
    exact WithTop.coe_ne_top (top_le_iff.1 this)
  · refine ⟨N, finals, best, hbest, fun fuel hf => ⟨hF fuel hf, ?_⟩, fun st hst => ?_⟩
    · rw [solve_some deltaE fuel cs hcs, searchAll_eq _ _ _ _ _ (hF fuel hf), h3]
      rfl
    · have := h2 st hst
      rw [h3] at this
      exact WithTop.coe_le_coe.1 this

theorem mathRound_range (x : ℚ) (h0 : 0 ≤ x) (h1 : x ≤ 255) :
    0 ≤ mathRound x ∧ mathRound x ≤ 255 := by
  unfold mathRound
  constructor
  · exact Int.floor_nonneg.2 (by linarith)
  · have : ⌊x + 1 / 2⌋ < 256 := Int.floor_lt.2 (by push_cast; linarith)
    omega

theorem foldl_sum_range (cs : List Constraint) (acc : Point) (k : Nat)
    (hr : ∀ c ∈ cs, InRange c.rgb)
    (h1 : 0 ≤ acc.1 ∧ acc.1 ≤ 255 * (k : ℚ)) (h2 : 0 ≤ acc.2.1 ∧ acc.2.1 ≤ 255 * (k : ℚ))
    (h3 : 0 ≤ acc.2.2 ∧ acc.2.2 ≤ 255 * (k : ℚ)) :
    (0 ≤ (cs.foldl (fun acc c => (acc.1 + c.rgb.1, acc.2.1 + c.rgb.2.1, acc.2.2 + c.rgb.2.2))
        acc).1 ∧
      (cs.foldl (fun acc c => (acc.1 + c.rgb.1, acc.2.1 + c.rgb.2.1, acc.2.2 + c.rgb.2.2))
        acc).1 ≤ 255 * ((k + cs.length : ℕ) : ℚ)) ∧
    (0 ≤ (cs.foldl (fun acc c => (acc.1 + c.rgb.1, acc.2.1 + c.rgb.2.1, acc.2.2 + c.rgb.2.2))
        acc).2.1 ∧
      (cs.foldl (fun acc c => (acc.1 + c.rgb.1, acc.2.1 + c.rgb.2.1, acc.2.2 + c.rgb.2.2))
        acc).2.1 ≤ 255 * ((k + cs.length : ℕ) : ℚ)) ∧
    (0 ≤ (cs.foldl (fun acc c => (acc.1 + c.rgb.1, acc.2.1 + c.rgb.2.1, acc.2.2 + c.rgb.2.2))
        acc).2.2 ∧
      (cs.foldl (fun acc c => (acc.1 + c.rgb.1, acc.2.1 + c.rgb.2.1, acc.2.2 + c.rgb.2.2))
        acc).2.2 ≤ 255 * ((k + cs.length : ℕ) : ℚ)) := by
  induction cs generalizing acc k with
  | nil => simpa using ⟨h1, h2, h3⟩
  | cons c cs ih =>
    simp only [List.foldl_cons, List.length_cons]
    obtain ⟨c1, c2, c3⟩ := hr c (List.mem_cons_self _ _)
    have := ih (acc.1 + c.rgb.1, acc.2.1 + c.rgb.2.1, acc.2.2 + c.rgb.2.2) (k + 1)
      (fun c2 hc2 => hr c2 (List.mem_cons_of_mem _ hc2))
      ⟨by simp only; linarith [h1.1, c1.1], by simp only; push_cast; linarith [h1.2, c1.2]⟩
      ⟨by simp only; linarith [h2.1, c2.1], by simp only; push_cast; linarith [h2.2, c2.2]⟩
      ⟨by simp only; linarith [h3.1, c3.1], by simp only; push_cast; linarith [h3.2, c3.2]⟩
    rw [show k + (cs.length + 1) = k + 1 + cs.length by omega]
    exact this

theorem averagePoint_inRange (cs : List Constraint) (hcs : cs ≠ [])
    (hr : ∀ c ∈ cs, InRange c.rgb) : InRange (averagePoint cs) := by
  have hpos : (0 : ℚ) < (cs.length : ℚ) := by
    exact_mod_cast List.length_pos.2 hcs
  obtain ⟨h1, h2, h3⟩ := foldl_sum_range cs ((0 : ℚ), (0 : ℚ), (0 : ℚ)) 0 hr
    ⟨le_refl _, by simp⟩ ⟨le_refl _, by simp⟩ ⟨le_refl _, by simp⟩
  simp only [Nat.zero_add] at h1 h2 h3
  unfold averagePoint InRange
  simp only
  refine ⟨⟨div_nonneg h1.1 hpos.le, ?_⟩, ⟨div_nonneg h2.1 hpos.le, ?_⟩,
    ⟨div_nonneg h3.1 hpos.le, ?_⟩⟩
  · rw [div_le_iff₀ hpos]; exact h1.2
  · rw [div_le_iff₀ hpos]; exact h2.2
  · rw [div_le_iff₀ hpos]; exact h3.2

theorem startingPoints_inRange (cs : List Constraint) (hr : ∀ c ∈ cs, InRange c.rgb) :
    ∀ sp ∈ startingPoints cs, InRange sp := by
  intro sp hsp
  unfold startingPoints at hsp
  rcases List.mem_append.1 hsp with h | h
  · simp only [List.mem_cons, List.mem_nil_iff, or_false] at h
    rcases h with rfl | rfl | rfl <;> unfold InRange <;> norm_num
  · by_cases hl : cs.length > 0
    · rw [if_pos hl, List.mem_singleton] at h
      rw [h]
      exact averagePoint_inRange cs (List.length_pos.1 hl) hr
    · rw [if_neg hl] at h
      simp at h

end ColordleSolver

namespace ColordleSolver

/-! ## The claims on the local search -/

/-- C17. For a non-empty constraint list the starting points are `(128,128,128)`,
`(64,64,64)`, `(192,192,192)` and the componentwise average of the guess colours;
every one of the four local searches ends (for every large enough bound on the
rounds of the loops, with the same final state), and the solver returns the
channels, rounded to the nearest integer, of a final point `best` whose total
squared error is the least among the four final points and is no greater than the
error at any of the four starting points. -/
theorem C17_best_of_four_searches (deltaE : Point → Point → ℚ) (cs : List Constraint)
    (hcs : cs ≠ []) :
    startingPoints cs = [(128, 128, 128), (64, 64, 64), (192, 192, 192), averagePoint cs] ∧
    (∀ x : ℚ, |((mathRound x : ℤ) : ℚ) - x| ≤ 1 / 2) ∧
    ∃ (N : Nat) (finals : List Search) (best : Search),
      best ∈ finals ∧
      (∀ fuel, N ≤ fuel →
        List.Forall₂
          (fun sp st =>
            localSearch (fun rgb => calculateError deltaE rgb (toTargets cs)) fuel sp = some st)
          (startingPoints cs) finals ∧
        solveRGBIncremental deltaE fuel (some cs)
          = some ⟨mathRound best.bestRGB.1, mathRound best.bestRGB.2.1,
              mathRound best.bestRGB.2.2⟩) ∧
      (∀ st ∈ finals, calculateError deltaE best.bestRGB (toTargets cs)
        ≤ calculateError deltaE st.bestRGB (toTargets cs)) ∧
      (∀ sp ∈ startingPoints cs, calculateError deltaE best.bestRGB (toTargets cs)
        ≤ calculateError deltaE sp (toTargets cs)) := by
  refine ⟨startingPoints_eq cs hcs, mathRound_near, ?_⟩
  obtain ⟨N, finals, best, hbest, hrun, hmin⟩ := solve_total deltaE cs hcs
  have hsync : ∀ st ∈ finals,
      st.minError = calculateError deltaE st.bestRGB (toTargets cs) ∧
      ∃ sp ∈ startingPoints cs, st.minError ≤ calculateError deltaE sp (toTargets cs) := by
    intro st hst
    obtain ⟨sp, hsp, hls⟩ := forall₂_right _ _ _ (hrun N (le_refl _)).1 st hst
    obtain ⟨_, g2, g3⟩ := localSearch_spec (fun rgb => calculateError deltaE rgb (toTargets cs))
      (fun _ => True) N (fun _ _ _ => trivial) sp st trivial hls
    exact ⟨g2, sp, hsp, g3⟩
  refine ⟨N, finals, best, hbest, fun fuel hf => ⟨(hrun fuel hf).1, (hrun fuel hf).2⟩, ?_, ?_⟩
  · intro st hst
    rw [← (hsync best hbest).1, ← (hsync st hst).1]
    exact hmin st hst
  · intro sp hsp
    obtain ⟨st, hst, hls⟩ := forall₂_left _ _ _ (hrun N (le_refl _)).1 sp hsp
    obtain ⟨_, _, g3⟩ := localSearch_spec (fun rgb => calculateError deltaE rgb (toTargets cs))
      (fun _ => True) N (fun _ _ _ => trivial) sp st trivial hls
    rw [← (hsync best hbest).1]
    exact le_trans (hmin st hst) g3

/-- C17, at two constraints under the sample distance. -/
theorem C17_best_of_four_searches_witness :
    startingPoints [⟨(0, 255, 255), 48⟩, ⟨(255, 0, 255), 59⟩]
      = [(128, 128, 128), (64, 64, 64), (192, 192, 192),
          averagePoint [⟨(0, 255, 255), 48⟩, ⟨(255, 0, 255), 59⟩]] :=
  (C17_best_of_four_searches sampleDeltaE [⟨(0, 255, 255), 48⟩, ⟨(255, 0, 255), 59⟩]
    (List.cons_ne_nil _ _)).1

/-- C18. For a constraint list whose guess colours have all channels in `[0, 255]`:
every starting point has its channels in `[0, 255]`; every neighbour `nextRGB` that
the search evaluates has its channels in `[0, 255]`, from any point and in any
direction; every search ends at a point with channels in `[0, 255]`; and the
returned `r`, `g`, `b` are integers in `[0, 255]`. -/
theorem C18_channels_in_range (deltaE : Point → Point → ℚ) (cs : List Constraint)
    (hr : ∀ c ∈ cs, InRange c.rgb) :
    (∀ sp ∈ startingPoints cs, InRange sp) ∧
    (∀ p d, InRange (nextRGB p d)) ∧
    ∃ N : Nat, ∀ fuel, N ≤ fuel →
      (∀ sp ∈ startingPoints cs, ∃ st,
        localSearch (fun rgb => calculateError deltaE rgb (toTargets cs)) fuel sp = some st ∧
        InRange st.bestRGB) ∧
      ∃ r, solveRGBIncremental deltaE fuel (some cs) = some r ∧
        (0 ≤ r.r ∧ r.r ≤ 255) ∧ (0 ≤ r.g ∧ r.g ≤ 255) ∧ (0 ≤ r.b ∧ r.b ≤ 255) := by
  have hstart := startingPoints_inRange cs hr
  refine ⟨hstart, nextRGB_inRange, ?_⟩
  have hsearch : ∀ (fuel : Nat) (finals : List Search),
      List.Forall₂
        (fun sp st =>
          localSearch (fun rgb => calculateError deltaE rgb (toTargets cs)) fuel sp = some st)
        (startingPoints cs) finals → ∀ st ∈ finals, InRange st.bestRGB := by
    intro fuel finals hF st hst
    obtain ⟨sp, hsp, hls⟩ := forall₂_right _ _ _ hF st hst
    exact (localSearch_spec (fun rgb => calculateError deltaE rgb (toTargets cs)) InRange fuel
      (fun p d _ => nextRGB_inRange p d) sp st (hstart sp hsp) hls).1
  by_cases hcs : cs = []
  · obtain ⟨N, finals, hF⟩ :=
      searchAll_total (fun rgb => calculateError deltaE rgb (toTargets cs)) (startingPoints cs)
    refine ⟨N, fun fuel hf => ⟨fun sp hsp => ?_, ?_⟩⟩
    · obtain ⟨st, hst, hls⟩ := forall₂_left _ _ _ (hF fuel hf) sp hsp
      exact ⟨st, hls, hsearch fuel finals (hF fuel hf) st hst⟩
    · subst hcs
      exact ⟨⟨128, 128, 128⟩, rfl, by decide⟩
  · obtain ⟨N, finals, best, hbest, hrun, _⟩ := solve_total deltaE cs hcs
    refine ⟨N, fun fuel hf => ⟨fun sp hsp => ?_, ?_⟩⟩
    · obtain ⟨st, hst, hls⟩ := forall₂_left _ _ _ (hrun fuel hf).1 sp hsp
      exact ⟨st, hls, hsearch fuel finals (hrun fuel hf).1 st hst⟩
    · obtain ⟨b1, b2, b3⟩ := hsearch fuel finals (hrun fuel hf).1 best hbest
      exact ⟨roundPoint best.bestRGB, (hrun fuel hf).2, mathRound_range _ b1.1 b1.2,
        mathRound_range _ b2.1 b2.2, mathRound_range _ b3.1 b3.2⟩

/-- C18, at two constraints with channels in range under the sample distance: the
average starting point has its channels in `[0, 255]`. -/
theorem C18_channels_in_range_witness :
    InRange (averagePoint [⟨(0, 255, 255), 48⟩, ⟨(255, 0, 255), 59⟩]) :=
  (C18_channels_in_range sampleDeltaE [⟨(0, 255, 255), 48⟩, ⟨(255, 0, 255), 59⟩]
    (by
      intro c hc
      simp only [List.mem_cons, List.mem_nil_iff, or_false] at hc
      rcases hc with rfl | rfl <;> unfold InRange <;> norm_num)).1 _
    (by rw [startingPoints_eq _ (List.cons_ne_nil _ _)]; simp)

end ColordleSolver

namespace ColordleSolver

/-! ## The digit filter over any code units -/

theorem checkPresent_eq_on (rg : List (Option Char × Mark)) (m : CharCounts) :
    checkPresent rg m = checkPresentOn rg m := by
  induction rg generalizing m with
  | nil => rfl
  | cons g rg ih =>
    simp only [checkPresent, checkPresentOn]
    have hc : consume m g.1 = consumeOn m g.1 := rfl
    rw [ih, ih, hc]

theorem satisfiesGuess_eq_on (hex : List Char) (g : Guess) :
    satisfiesGuess hex g = satisfiesGuessOn toUpperCase hex (guessPair g) := by
  have h1 : correctPass hex (toUpperCase g.hex) g.feedback
      = correctPassOn hex (toUpperCase g.hex) g.feedback := rfl
  have h2 : remainingGuess (toUpperCase g.hex) g.feedback
      = remainingGuessOn (toUpperCase g.hex) g.feedback := rfl
  have h3 : targetCharCounts (remainingTarget hex g.feedback)
      = targetCharCountsOn (remainingTargetOn hex g.feedback) := rfl
  unfold satisfiesGuess satisfiesGuessOn guessPair
  simp only [checkPresent_eq_on, h1, h2, h3]
  cases correctPassOn hex (toUpperCase g.hex) g.feedback with
  | false => rfl
  | true =>
    cases checkPresentOn (remainingGuessOn (toUpperCase g.hex) g.feedback)
        (targetCharCountsOn (remainingTargetOn hex g.feedback)) with
    | none => rfl
    | some m => rfl

theorem keepColor_eq_on (gs : List Guess) (c : Color) :
    keepColor gs c = keepColorOn toUpperCase '#' Color.hex (gs.map guessPair) c := by
  unfold keepColor keepColorOn
  have hn : normalizeHex c.hex = normalizeHexOn toUpperCase '#' c.hex := rfl
  have hf : satisfiesGuess (normalizeHexOn toUpperCase '#' c.hex)
      = satisfiesGuessOn toUpperCase (normalizeHexOn toUpperCase '#' c.hex) ∘ guessPair :=
    funext fun g => satisfiesGuess_eq_on _ g
  have ha : gs.all (satisfiesGuess (normalizeHexOn toUpperCase '#' c.hex))
      = (gs.map guessPair).all
          (satisfiesGuessOn toUpperCase (normalizeHexOn toUpperCase '#' c.hex)) := by
    rw [hf]
    induction gs with
    | nil => rfl
    | cons g gs ih => simp only [List.all_cons, List.map_cons, ih, Function.comp]
  simp only [hn]
  by_cases h6 : (normalizeHexOn toUpperCase '#' c.hex).length = 6
  · rw [if_neg (not_not.2 h6), if_neg (not_not.2 h6)]
    exact ha
  · rw [if_pos h6, if_pos h6]

/-- The filter on ASCII text is the instance of the general filter at `toUpperCase`. -/
theorem filterColorsByWordleHints_eq_on (db : List Color) (gs : List Guess) :
    filterColorsByWordleHints db gs
      = filterColorsByWordleHintsOn toUpperCase '#' Color.hex db (gs.map guessPair) := by
  unfold filterColorsByWordleHints filterColorsByWordleHintsOn
  rw [List.length_map]
  split_ifs
  · rfl
  · apply List.filter_congr
    intro c _
    exact keepColor_eq_on gs c

theorem keepColorOn_length {U : Type} [DecidableEq U] {E : Type} (upper : List U → List U)
    (hash : U) (hexOf : E → List U) (gs : List (List U × List Mark)) (c : E)
    (h : keepColorOn upper hash hexOf gs c = true) :
    (normalizeHexOn upper hash (hexOf c)).length = 6 := by
  unfold keepColorOn at h
  by_contra hne
  simp [hne] at h

theorem correctPassOn_iff {U : Type} [DecidableEq U] (hex gh : List U) (fb : List Mark) :
    correctPassOn hex gh fb = true ↔
      ∀ i, i < 6 → markAt fb i = Mark.correct → hex[i]? = gh[i]? := by
  simp only [correctPassOn, List.all_eq_true, List.mem_range]
  constructor
  · intro h i hi hc
    simpa [hc] using h i hi
  · intro h i hi
    by_cases hc : markAt fb i = Mark.correct
    · simpa [hc] using h i hi hc
    · simp [hc]

theorem eq_of_getElem?_six_on {U : Type} (a b : List U) (ha : a.length = 6)
    (hb : b.length = 6) (h : ∀ i, i < 6 → a[i]? = b[i]?) : a = b := by
  apply List.ext_getElem?
  intro n
  by_cases hn : n < 6
  · exact h n hn
  · rw [List.getElem?_eq_none (by omega), List.getElem?_eq_none (by omega)]

theorem noncorrect_allCorrect :
    ((List.range 6).filter fun i => decide (markAt (allMarks Mark.correct) i ≠ Mark.correct))
      = [] := by
  decide

theorem satisfiesGuessOn_allCorrect {U : Type} [DecidableEq U] (upper : List U → List U)
    (hex g : List U) :
    satisfiesGuessOn upper hex (g, allMarks Mark.correct)
      = correctPassOn hex (upper g) (allMarks Mark.correct) := by
  unfold satisfiesGuessOn remainingGuessOn remainingTargetOn
  simp only [noncorrect_allCorrect, List.map_nil, targetCharCountsOn, List.foldl_nil,
    checkPresentOn, checkAbsentOn, List.all_nil]
  cases correctPassOn hex (upper g) (allMarks Mark.correct) <;> rfl

theorem keepColorOn_allCorrect {U : Type} [DecidableEq U] {E : Type}
    (upper : List U → List U) (hash : U) (hexOf : E → List U) (g : List U)
    (hg : (upper g).length = 6) (c : E) :
    keepColorOn upper hash hexOf [(g, allMarks Mark.correct)] c
      = decide (normalizeHexOn upper hash (hexOf c) = upper g) := by
  unfold keepColorOn
  simp only [List.all_cons, List.all_nil, Bool.and_true, satisfiesGuessOn_allCorrect]
  by_cases h6 : (normalizeHexOn upper hash (hexOf c)).length = 6
  · rw [if_neg (not_not.2 h6)]
    by_cases he : normalizeHexOn upper hash (hexOf c) = upper g
    · rw [decide_eq_true he, correctPassOn_iff]
      intro i _ _
      rw [he]
    · rw [decide_eq_false he]
      cases hcp : correctPassOn (normalizeHexOn upper hash (hexOf c)) (upper g)
          (allMarks Mark.correct) with
      | false => rfl
      | true =>
        exfalso
        apply he
        apply eq_of_getElem?_six_on _ _ h6 hg
        intro i hi
        exact (correctPassOn_iff _ _ _).1 hcp i hi (markAt_allMarks _ i hi)
  · rw [if_pos h6]
    have he : normalizeHexOn upper hash (hexOf c) ≠ upper g := by
      intro e
      rw [e] at h6
      exact h6 hg
    rw [decide_eq_false he]

end ColordleSolver

namespace ColordleSolver

theorem foldl_bumpOn {U : Type} [DecidableEq U] (rt : List (Option U)) (m : Option U → Nat)
    (k : Option U) : rt.foldl bumpOn m k = m k + rt.count k := by
  induction rt generalizing m with
  | nil => simp
  | cons a rt ih =>
    simp only [List.foldl_cons, ih, bumpOn, List.count_cons]
    by_cases h : k = a
    · subst h; simp; omega
    · have h2 : ¬ (a == k) = true := by simpa using fun e => h e.symm
      simp [h, h2]

theorem noncorrect_allAbsent :
    ((List.range 6).filter fun i => decide (markAt (allMarks Mark.absent) i ≠ Mark.correct))
      = [0, 1, 2, 3, 4, 5] := by
  decide

theorem correctPassOn_allAbsent {U : Type} [DecidableEq U] (hex gh : List U) :
    correctPassOn hex gh (allMarks Mark.absent) = true := by
  rw [correctPassOn_iff]
  intro i hi hc
  rw [markAt_allMarks _ i hi] at hc
  exact absurd hc (by decide)

theorem satisfiesGuessOn_allAbsent {U : Type} [DecidableEq U] (upper : List U → List U)
    (hex g : List U) (hh : hex.length = 6) (hg : (upper g).length = 6) :
    satisfiesGuessOn upper hex (g, allMarks Mark.absent) = true ↔
      ∀ x ∈ upper g, x ∉ hex := by
  unfold satisfiesGuessOn
  simp only [correctPassOn_allAbsent, if_true]
  generalize upper g = gh at hg ⊢
  obtain ⟨t0, t1, t2, t3, t4, t5, rfl⟩ := length_six hex hh
  obtain ⟨g0, g1, g2, g3, g4, g5, rfl⟩ := length_six gh hg
  have hm : ∀ i, i < 6 → markAt (allMarks Mark.absent) i = Mark.absent :=
    fun i hi => markAt_allMarks _ i hi
  simp only [remainingGuessOn, remainingTargetOn, noncorrect_allAbsent, List.map_cons,
    List.map_nil, hm 0 (by omega), hm 1 (by omega), hm 2 (by omega), hm 3 (by omega),
    hm 4 (by omega), hm 5 (by omega), checkPresentOn]
  have hcount : ∀ rt : List (Option U), targetCharCountsOn rt = fun k => rt.count k := by
    intro rt
    funext k
    simp [targetCharCountsOn, foldl_bumpOn]
  rw [hcount]
  simp [checkAbsentOn, List.count_eq_zero]

end ColordleSolver

namespace ColordleSolver

theorem filterOn_single {U : Type} [DecidableEq U] {E : Type} (upper : List U → List U)
    (hash : U) (hexOf : E → List U) (db : List E) (guess : List U × List Mark) :
    filterColorsByWordleHintsOn upper hash hexOf db [guess]
      = db.filter (keepColorOn upper hash hexOf [guess]) := by
  simp [filterColorsByWordleHintsOn]

/-- For a guess marked all `absent` whose uppercased form has six code units, the
filter keeps exactly the entries whose normalised hex has six code units and
contains none of the code units of the uppercased guess. -/
theorem filterOn_allAbsent {U : Type} [DecidableEq U] {E : Type} (upper : List U → List U)
    (hash : U) (hexOf : E → List U) (db : List E) (g : List U)
    (hg : (upper g).length = 6) :
    filterColorsByWordleHintsOn upper hash hexOf db [(g, allMarks Mark.absent)]
      = db.filter (fun c => decide ((normalizeHexOn upper hash (hexOf c)).length = 6 ∧
          ∀ x ∈ upper g, x ∉ normalizeHexOn upper hash (hexOf c))) := by
  rw [filterOn_single]
  apply List.filter_congr
  intro c _
  unfold keepColorOn
  simp only [List.all_cons, List.all_nil, Bool.and_true]
  by_cases h6 : (normalizeHexOn upper hash (hexOf c)).length = 6
  · rw [if_neg (not_not.2 h6)]
    have := satisfiesGuessOn_allAbsent upper (normalizeHexOn upper hash (hexOf c)) g h6 hg
    by_cases he : ∀ x ∈ upper g, x ∉ normalizeHexOn upper hash (hexOf c)
    · rw [this.2 he]
      exact (decide_eq_true ⟨h6, he⟩).symm
    · have hf : satisfiesGuessOn upper (normalizeHexOn upper hash (hexOf c))
          (g, allMarks Mark.absent) = false := by
        cases hs : satisfiesGuessOn upper (normalizeHexOn upper hash (hexOf c))
            (g, allMarks Mark.absent) with
        | false => rfl
        | true => exact absurd (this.1 hs) he
      rw [hf]
      exact (decide_eq_false fun h => he h.2).symm
  · rw [if_pos h6]
    exact (decide_eq_false fun h => h6 h.1).symm

/-! ## The claims on the length check and on uniform feedback -/

/-- C4, amended. For a non-empty guess history, every entry of the result is an
entry of the database whose normalised hex (an optional leading `#` stripped and the
rest uppercased, as line 14 computes it) has exactly six code units; an entry whose
normalised hex has any other length is therefore never in the result. This holds
over any code units and for any case mapping, also one that changes the length of
the hex. -/
theorem C4_result_hex_length {U : Type} [DecidableEq U] {E : Type} (upper : List U → List U)
    (hash : U) (hexOf : E → List U) (db : List E) (guesses : List (List U × List Mark))
    (c : E) (hne : guesses ≠ [])
    (hmem : c ∈ filterColorsByWordleHintsOn upper hash hexOf db guesses) :
    c ∈ db ∧ (normalizeHexOn upper hash (hexOf c)).length = 6 := by
  have hlen : guesses.length ≠ 0 := fun h => hne (List.length_eq_zero.1 h)
  unfold filterColorsByWordleHintsOn at hmem
  rw [if_neg hlen, List.mem_filter] at hmem
  exact ⟨hmem.1, keepColorOn_length upper hash hexOf guesses c hmem.2⟩

/-- C4 amended, at Red of the mock list against the guess `FF0000` marked all
`correct`. -/
theorem C4_result_hex_length_witness :
    (⟨"Red", "#FF0000".toList⟩ : Color) ∈ mockColorList ∧
      (normalizeHexOn toUpperCase '#' "#FF0000".toList).length = 6 :=
  C4_result_hex_length toUpperCase '#' Color.hex mockColorList
    [("FF0000".toList, allMarks Mark.correct)] ⟨"Red", "#FF0000".toList⟩
    (List.cons_ne_nil _ _) (by decide)

/-- C5. For a six-digit guess `g` (its uppercased form has six code units) marked
all `correct`, the filter returns exactly the database entries whose normalised hex
(leading `#` stripped, uppercased) equals the uppercased `g`, in database order;
this holds over any code units and for any case mapping. On the mock list the guess
`FF0000` yields exactly `[Red]`. -/
theorem C5_all_correct {U : Type} [DecidableEq U] {E : Type} (upper : List U → List U)
    (hash : U) (hexOf : E → List U) (db : List E) (g : List U)
    (hg : (upper g).length = 6) :
    filterColorsByWordleHintsOn upper hash hexOf db [(g, allMarks Mark.correct)]
        = db.filter (fun c => decide (normalizeHexOn upper hash (hexOf c) = upper g)) ∧
    filterColorsByWordleHints mockColorList [⟨"FF0000".toList, allMarks Mark.correct⟩]
        = [⟨"Red", "#FF0000".toList⟩] := by
  refine ⟨?_, by decide⟩
  rw [filterOn_single]
  apply List.filter_congr
  intro c _
  exact keepColorOn_allCorrect upper hash hexOf g hg c

/-- C5, at the three-colour database of the spec's scenario with the lowercase
guess `ff0000`. -/
theorem C5_all_correct_witness :
    filterColorsByWordleHintsOn toUpperCase '#' Color.hex
        [⟨"Red", "#FF0000".toList⟩, ⟨"Black", "#000000".toList⟩, ⟨"Blue", "#0000FF".toList⟩]
        [("ff0000".toList, allMarks Mark.correct)]
      = ([⟨"Red", "#FF0000".toList⟩, ⟨"Black", "#000000".toList⟩,
          ⟨"Blue", "#0000FF".toList⟩] : List Color).filter
          (fun c => decide (normalizeHexOn toUpperCase '#' c.hex
            = toUpperCase "ff0000".toList)) :=
  (C5_all_correct toUpperCase '#' Color.hex _ "ff0000".toList (by decide)).1

/-- C6, the test's case on the code. On the mock list the guess `FF0000` marked all
`absent` leaves nothing: every mock colour contains `F` or `0`, and Black (`#000000`)
is rejected by the `absent` loop because its digit `0` is marked `absent`. The claim
and Test 2 of `test-wordle.js` expect exactly `[Black]`. -/
theorem C6_absent_test_case :
    filterColorsByWordleHints mockColorList [⟨"FF0000".toList, allMarks Mark.absent⟩] = [] ∧
    filterColorsByWordleHints mockColorList [⟨"FF0000".toList, allMarks Mark.absent⟩]
      ≠ [⟨"Black", "#000000".toList⟩] ∧
    satisfiesGuess (normalizeHex "#000000".toList)
      ⟨"FF0000".toList, allMarks Mark.absent⟩ = false := by
  decide

end ColordleSolver

namespace ColordleSolver

theorem specError_one (deltaE : Point → Point → ℚ) (p g : Point) (s : ℚ) :
    specError deltaE p [⟨g, s⟩] = (deltaE p g - (100 - s)) ^ 2 := by
  simp only [specError, List.map_cons, List.map_nil, List.sum_cons, List.sum_nil, add_zero]
  ring

/-! ## The claim on the exactly matching constraint -/

/-- C11, refuted as stated. In a database holding the same hex under two names, the
second entry is matched by the constraint exactly as well as the first, and yet the
first entry is the one returned first, for every distance function and every score
(the exactly matching one included): the sort is stable, the two errors are equal. -/
theorem C11_counterexample :
    (∀ (deltaE : Point → Point → ℚ) (sqrt : ℚ → ℚ) (g : Point) (s : ℚ),
      (findBestDatabaseMatches deltaE sqrt (some [⟨g, s⟩])
          [⟨"Onyx", "#000000".toList⟩, ⟨"Black", "#000000".toList⟩] 1).map Match.name
        = ["Onyx"]) ∧
    hexToRgb "#000000".toList = some ⟨0, 0, 0⟩ ∧
    (⟨"Black", "#000000".toList⟩ : Color) ∈
      [(⟨"Onyx", "#000000".toList⟩ : Color), ⟨"Black", "#000000".toList⟩] := by
  have hx : hexToRgb "#000000".toList = some ⟨0, 0, 0⟩ := by decide
  refine ⟨fun deltaE sqrt g s => ?_, hx, by decide⟩
  rw [findBest_some _ _ _ _ _ (by simp)]
  simp only [List.map_cons, List.map_nil]
  rw [scoreColor_some _ _ ⟨"Onyx", "#000000".toList⟩ _ hx,
    scoreColor_some _ _ ⟨"Black", "#000000".toList⟩ _ hx]
  simp [sortByError, List.insertionSort, List.orderedInsert, toMatch]

/-- C11, amended. For a single constraint `(g, s)`, an entry `e` of the database with
a parseable hex and a limit of at least one: the total squared error of `e` is
`(DeltaE(e, g) - (100 - s))²`, hence at most `ε²` when `s` is within `ε` of
`100 - DeltaE(e, g)`; and `e` is the first element returned, with that error, when
every earlier parseable entry is strictly farther from the target distance `100 - s`
than `e` is and every later one is at least as far (entries with equal error keep
their database order). -/
theorem C11_exact_match_first (deltaE : Point → Point → ℚ) (sqrt : ℚ → ℚ)
    (pre post : List Color) (e : Color) (o : Rgb) (g : Point) (s : ℚ) (limit : Nat)
    (he : hexToRgb e.hex = some o) (hl : 1 ≤ limit)
    (hpre : ∀ c ∈ pre, ∀ o2, hexToRgb c.hex = some o2 →
      |deltaE (rgbArr o) g - (100 - s)| < |deltaE (rgbArr o2) g - (100 - s)|)
    (hpost : ∀ c ∈ post, ∀ o2, hexToRgb c.hex = some o2 →
      |deltaE (rgbArr o) g - (100 - s)| ≤ |deltaE (rgbArr o2) g - (100 - s)|) :
    (∃ m, (findBestDatabaseMatches deltaE sqrt (some [⟨g, s⟩])
        (pre ++ e :: post) limit).head? = some m ∧
      m.name = e.name ∧ m.hex = e.hex ∧ m.rgb = some o ∧
      m.error = (((deltaE (rgbArr o) g - (100 - s)) ^ 2 : ℚ) : WithTop ℚ)) ∧
    ∀ ε : ℚ, |s - (100 - deltaE (rgbArr o) g)| ≤ ε →
      (deltaE (rgbArr o) g - (100 - s)) ^ 2 ≤ ε ^ 2 := by
  constructor
  · have hne : ([⟨g, s⟩] : List Constraint) ≠ [] := by simp
    rw [findBest_some _ _ _ _ _ hne, head?_map_take _ _ _ hl]
    have hsc : scoreColor deltaE (toTargets [⟨g, s⟩]) e
        = ⟨e, (((deltaE (rgbArr o) g - (100 - s)) ^ 2 : ℚ) : WithTop ℚ)⟩ := by
      rw [scoreColor_some _ _ _ o he, calculateError_eq_specError, specError_one]
    rw [List.map_append, List.map_cons, hsc, sortByError_head]
    · exact ⟨_, rfl, rfl, rfl, he, rfl⟩
    · intro y hy
      obtain ⟨c, hc, rfl⟩ := List.mem_map.1 hy
      cases h : hexToRgb c.hex with
      | none => rw [scoreColor_none _ _ _ h]; exact WithTop.coe_lt_top _
      | some o2 =>
        rw [scoreColor_some _ _ _ o2 h, calculateError_eq_specError, specError_one]
        exact WithTop.coe_lt_coe.2 (sq_lt_sq.2 (hpre c hc o2 h))
    · intro y hy
      obtain ⟨c, hc, rfl⟩ := List.mem_map.1 hy
      cases h : hexToRgb c.hex with
      | none => rw [scoreColor_none _ _ _ h]; exact le_top
      | some o2 =>
        rw [scoreColor_some _ _ _ o2 h, calculateError_eq_specError, specError_one]
        exact WithTop.coe_le_coe.2 (sq_le_sq.2 (hpost c hc o2 h))
  · intro ε hε
    have h1 : deltaE (rgbArr o) g - (100 - s) = s - (100 - deltaE (rgbArr o) g) := by ring
    rw [h1]
    exact sq_le_sq.2 (le_trans hε (le_abs_self ε))

/-- C11 amended, at Blue ahead of Red, for the guess `(0, 0, 250)` and the score
`100 - 5/8` under the sample distance. -/
theorem C11_exact_match_first_witness :
    ∃ m, (findBestDatabaseMatches sampleDeltaE sampleSqrt
        (some [⟨(0, 0, 250), 100 - 5 / 8⟩])
        ([] ++ ⟨"Blue", "#0000FF".toList⟩ :: [⟨"Red", "#FF0000".toList⟩]) 10).head? = some m ∧
      m.name = "Blue" ∧ m.hex = "#0000FF".toList ∧ m.rgb = some ⟨0, 0, 255⟩ ∧
      m.error = (((sampleDeltaE (rgbArr ⟨0, 0, 255⟩) (0, 0, 250) - (100 - (100 - 5 / 8))) ^ 2 : ℚ) :
        WithTop ℚ) :=
  (C11_exact_match_first sampleDeltaE sampleSqrt [] [⟨"Red", "#FF0000".toList⟩]
    ⟨"Blue", "#0000FF".toList⟩ ⟨0, 0, 255⟩ (0, 0, 250) (100 - 5 / 8) 10 (by decide) (by decide)
    (fun c hc => absurd hc (List.not_mem_nil c))
    (fun c _ o2 _ => by
      have h0 : sampleDeltaE (rgbArr ⟨0, 0, 255⟩) (0, 0, 250) - (100 - (100 - 5 / 8)) = 0 := by
        norm_num [sampleDeltaE, rgbArr]
      rw [h0, abs_zero]
      exact abs_nonneg _)).1

end ColordleSolver
